import Mathlib

/-
Verification of the limit-order-book core of the tradebot repository
(src/limit_order_book/order.rs) against its natural-language specification.

The Rust code is shallowly embedded:
  * `Decimal` (rust_decimal, exact fixed-point decimal arithmetic) is
    modelled by `Rat`;
  * `HashMap<K, V>` and `BTreeMap<K, V>` are modelled by association lists
    `List (K × V)`; `BTreeMap`'s ordered key iteration is only used through
    `keys().next()` / `keys().next_back()`, modelled by `minKey` / `maxKey`;
  * `Rc<RefCell<Limit>>` values are never aliased by the book (each is
    created fresh and owned by exactly one map entry), so levels are
    embedded by value, in-place mutation becoming `mupdate`;
  * the `while let` loop of `execute_order` is embedded with explicit fuel
    (`execLoop`): `none` means the loop has not finished within the fuel.
-/

set_option maxHeartbeats 1000000

namespace Tradebot

/-- Side of an order (`OrderType` in the source): `Bid` buys, `Ask` sells. -/
inductive OrderType where
  | Bid
  | Ask
deriving DecidableEq

/-- An order as in the source: identity fields plus remaining `shares` and a
fixed `limit_price`.  `DateTime<Utc>` timestamps are opaque to the book and
modelled by `Int`. -/
structure Order where
  tick_id : String
  exchange_id : Nat
  order_type : OrderType
  shares : Rat
  limit_price : Rat
  entry_time : Int
  event_time : Int
deriving DecidableEq

/-- `HashMap::get` on the association-list model. -/
def mlookup {κ α : Type} [DecidableEq κ] (k : κ) : List (κ × α) → Option α
  | [] => none
  | e :: t => if e.1 = k then some e.2 else mlookup k t

/-- `HashMap::remove` on the association-list model (drops every entry with
the key; maps built by `minsert` hold it at most once). -/
def merase {κ α : Type} [DecidableEq κ] (k : κ) : List (κ × α) → List (κ × α)
  | [] => []
  | e :: t => if e.1 = k then merase k t else e :: merase k t

/-- `HashMap::insert`: the key now maps to `v`, all other entries kept. -/
def minsert {κ α : Type} [DecidableEq κ] (k : κ) (v : α) (m : List (κ × α)) :
    List (κ × α) :=
  (k, v) :: merase k m

/-- In-place mutation of the entry at `k` (Rust `get_mut` followed by
mutation of the value). -/
def mupdate {κ α : Type} [DecidableEq κ] (k : κ) (v : α) : List (κ × α) → List (κ × α)
  | [] => []
  | e :: t => (if e.1 = k then (k, v) else e) :: mupdate k v t

/-- The keys of an association list are pairwise distinct (true of every map
the book builds; `HashMap` guarantees it). -/
def keysND {κ α : Type} (m : List (κ × α)) : Prop := (m.map Prod.fst).Nodup

/-- A price level (`Limit` in the source).  `parent` is the recursive
back-pointer the source declares; the book constructs every level with
`parent = none` and nothing ever sets it. -/
inductive Limit where
  | mk (limit_price : Rat) (orders : List (Nat × Order)) (parent : Option Limit)
      (size : Rat) (total_volume : Rat) (order_count : Nat) : Limit

def Limit.limit_price : Limit → Rat
  | .mk p _ _ _ _ _ => p

def Limit.orders : Limit → List (Nat × Order)
  | .mk _ o _ _ _ _ => o

def Limit.parent : Limit → Option Limit
  | .mk _ _ p _ _ _ => p

def Limit.size : Limit → Rat
  | .mk _ _ _ s _ _ => s

def Limit.total_volume : Limit → Rat
  | .mk _ _ _ _ v _ => v

def Limit.order_count : Limit → Nat
  | .mk _ _ _ _ _ c => c

/-- `Limit::new`. -/
def Limit.new (p : Rat) : Limit := .mk p [] none 0 0 0

/-- `Limit::add_order`: aggregates grow by the order, the order is inserted
keyed by its exchange id (overwriting an entry already at that id, exactly
as `HashMap::insert` does). -/
def Limit.addOrder : Limit → Order → Limit
  | .mk p ords par sz tv oc, o =>
    .mk p (minsert o.exchange_id o ords) par (sz + o.shares)
      (tv + o.shares * o.limit_price) (oc + 1)

/-- `Limit::remove_order`: if the argument's exchange id is stored, the entry
is removed and the aggregates shrink by the *stored* order's size and
notional; then, when the level has no parent and its map is empty, the
aggregates are forced to exactly zero; finally, when `size = 0` and a parent
exists, the removal is retargeted recursively onto the parent. -/
def Limit.removeOrder : Limit → Order → Limit
  | .mk p ords none sz tv oc, o =>
    let step1 : List (Nat × Order) × Rat × Rat × Nat :=
      match mlookup o.exchange_id ords with
      | some r =>
        (merase o.exchange_id ords, sz - r.shares, tv - r.shares * r.limit_price, oc - 1)
      | none => (ords, sz, tv, oc)
    let ords1 := step1.1
    let step2 : Rat × Rat × Nat :=
      if ords1.isEmpty then (0, 0, 0) else (step1.2.1, step1.2.2.1, step1.2.2.2)
    .mk p ords1 none step2.1 step2.2.1 step2.2.2
  | .mk p ords (some pl) sz tv oc, o =>
    let step1 : List (Nat × Order) × Rat × Rat × Nat :=
      match mlookup o.exchange_id ords with
      | some r =>
        (merase o.exchange_id ords, sz - r.shares, tv - r.shares * r.limit_price, oc - 1)
      | none => (ords, sz, tv, oc)
    let ords1 := step1.1
    let sz1 := step1.2.1
    let par2 : Option Limit := if sz1 = 0 then some (pl.removeOrder o) else some pl
    .mk p ords1 par2 sz1 step1.2.2.1 step1.2.2.2
termination_by structural l _ => l

/-- `Limit::is_empty`: `size == 0`. -/
def Limit.isEmpty (l : Limit) : Bool := l.size == 0

/-- The book (`LimitOrderBook`): bid and ask sides keyed by price, a flat
index from exchange id to order, and the cached top-of-book prices. -/
structure LimitOrderBook where
  bids : List (Rat × Limit)
  asks : List (Rat × Limit)
  orders : List (Nat × Order)
  lowest_ask : Option Rat
  highest_bid : Option Rat

/-- `BTreeMap::keys().next()`: the least key of the map, `none` when empty. -/
def minKey : List (Rat × Limit) → Option Rat
  | [] => none
  | e :: t =>
    match minKey t with
    | none => some e.1
    | some m => some (min e.1 m)

/-- `BTreeMap::keys().next_back()`: the greatest key, `none` when empty. -/
def maxKey : List (Rat × Limit) → Option Rat
  | [] => none
  | e :: t =>
    match maxKey t with
    | none => some e.1
    | some m => some (max e.1 m)

/-- `LimitOrderBook::new`. -/
def emptyBook : LimitOrderBook :=
  { bids := [], asks := [], orders := [], lowest_ask := none, highest_bid := none }

/-- `LimitOrderBook::add_order`: unconditionally inserts into the flat index,
then adds the order to the existing level at its price on its side (mutating
it in place) or creates that level, and finally recomputes both cached
top-of-book prices from the final maps. -/
def LimitOrderBook.addOrder (b : LimitOrderBook) (o : Order) : LimitOrderBook :=
  let orders1 := minsert o.exchange_id o b.orders
  match o.order_type with
  | .Bid =>
    let bids1 :=
      match mlookup o.limit_price b.bids with
      | some l => mupdate o.limit_price (l.addOrder o) b.bids
      | none => minsert o.limit_price ((Limit.new o.limit_price).addOrder o) b.bids
    { bids := bids1, asks := b.asks, orders := orders1,
      lowest_ask := minKey b.asks, highest_bid := maxKey bids1 }
  | .Ask =>
    let asks1 :=
      match mlookup o.limit_price b.asks with
      | some l => mupdate o.limit_price (l.addOrder o) b.asks
      | none => minsert o.limit_price ((Limit.new o.limit_price).addOrder o) b.asks
    { bids := b.bids, asks := asks1, orders := orders1,
      lowest_ask := minKey asks1, highest_bid := maxKey b.bids }

/-- `LimitOrderBook::remove_order`: if a level exists at the argument's price
on the argument's side, the order is removed from it (in place) and the level
is dropped from the side when it becomes empty; the exchange id is removed
from the flat index unconditionally; both top-of-book prices are recomputed
from the final maps. -/
def LimitOrderBook.removeOrder (b : LimitOrderBook) (o : Order) : LimitOrderBook :=
  match o.order_type with
  | .Bid =>
    let bids1 :=
      match mlookup o.limit_price b.bids with
      | some l =>
        let l1 := l.removeOrder o
        let upd := mupdate o.limit_price l1 b.bids
        if l1.isEmpty then merase o.limit_price upd else upd
      | none => b.bids
    { bids := bids1, asks := b.asks, orders := merase o.exchange_id b.orders,
      lowest_ask := minKey b.asks, highest_bid := maxKey bids1 }
  | .Ask =>
    let asks1 :=
      match mlookup o.limit_price b.asks with
      | some l =>
        let l1 := l.removeOrder o
        let upd := mupdate o.limit_price l1 b.asks
        if l1.isEmpty then merase o.limit_price upd else upd
      | none => b.asks
    { bids := b.bids, asks := asks1, orders := merase o.exchange_id b.orders,
      lowest_ask := minKey asks1, highest_bid := maxKey b.bids }

/-- The `while let` loop of `LimitOrderBook::execute_order`, identical for the
two sides, with explicit fuel.  Each iteration looks the current `lp` up in
the opposite side: if no level is there the loop ends; if the level's size
covers the taker's remaining shares, `Limit::remove_order` is called with the
taker's own order, the price is recorded when the level is now empty, and the
loop breaks; otherwise the taker's shares shrink by the level's size,
`Limit::remove_order` is again called with the taker's order, the price is
recorded when the level is now empty, and the loop repeats at
`limit.limit_price` — the same level's own price.  Returns the final side
map, the taker, and the recorded removed price; `none` when the fuel runs out
before the loop finishes. -/
def execLoop (fuel : Nat) (o : Order) (lp : Rat) (side : List (Rat × Limit))
    (removed : Option Rat) : Option (List (Rat × Limit) × Order × Option Rat) :=
  match fuel with
  | 0 => none
  | fuel1 + 1 =>
    match mlookup lp side with
    | none => some (side, o, removed)
    | some l =>
      if o.shares ≤ l.size then
        let l1 := l.removeOrder o
        let removed1 := if l1.isEmpty then some lp else removed
        some (mupdate lp l1 side, o, removed1)
      else
        let o1 := { o with shares := o.shares - l.size }
        let l1 := l.removeOrder o1
        let removed1 := if l1.isEmpty then some lp else removed
        execLoop fuel1 o1 l1.limit_price (mupdate lp l1 side) removed1

/-- `LimitOrderBook::execute_order`: a taker `Bid` runs the loop against the
asks, a taker `Ask` against the bids, starting from the taker's own
`limit_price`; afterwards the single recorded emptied level (if any) is
removed from its side, and both top-of-book prices are recomputed.  `none`
when the loop does not finish within `fuel` iterations. -/
def LimitOrderBook.executeOrder (fuel : Nat) (b : LimitOrderBook) (o : Order) :
    Option LimitOrderBook :=
  match o.order_type with
  | .Bid =>
    (execLoop fuel o o.limit_price b.asks none).map (fun r =>
      let asks1 :=
        match r.2.2 with
        | some lp => merase lp r.1
        | none => r.1
      { bids := b.bids, asks := asks1, orders := b.orders,
        lowest_ask := minKey asks1, highest_bid := maxKey b.bids })
  | .Ask =>
    (execLoop fuel o o.limit_price b.bids none).map (fun r =>
      let bids1 :=
        match r.2.2 with
        | some lp => merase lp r.1
        | none => r.1
      { bids := bids1, asks := b.asks, orders := b.orders,
        lowest_ask := minKey b.asks, highest_bid := maxKey bids1 })

/-- `LimitOrderBook::get_best_bid`: returns the cached field. -/
def LimitOrderBook.getBestBid (b : LimitOrderBook) : Option Rat := b.highest_bid

/-- `LimitOrderBook::get_best_ask`: returns the cached field. -/
def LimitOrderBook.getBestAsk (b : LimitOrderBook) : Option Rat := b.lowest_ask

/-- `LimitOrderBook::remove_order` with its return value made explicit: the
Rust function's signature is `pub fn remove_order(&mut self, order: Order)`,
so its whole output is the mutated book and the unit value `()`. -/
def LimitOrderBook.removeOrderRet (b : LimitOrderBook) (o : Order) :
    LimitOrderBook × Unit :=
  (b.removeOrder o, ())

section MapLemmas

variable {κ α : Type} [DecidableEq κ]

theorem mlookup_eq_none_iff {k : κ} {m : List (κ × α)} :
    mlookup k m = none ↔ ∀ e ∈ m, e.1 ≠ k := by
  induction m with
  | nil => simp [mlookup]
  | cons e t ih =>
    by_cases h : e.1 = k
    · simp [mlookup, h]
    · simp [mlookup, h, ih]

theorem mlookup_mem {k : κ} {m : List (κ × α)} {v : α} (h : mlookup k m = some v) :
    (k, v) ∈ m := by
  induction m with
  | nil => simp [mlookup] at h
  | cons f t ih =>
    by_cases hf : f.1 = k
    · simp only [mlookup, if_pos hf, Option.some.injEq] at h
      have hfl : (k, v) = f := by rw [← hf, ← h]
      rw [hfl]
      exact List.mem_cons_self _ _
    · simp only [mlookup, if_neg hf] at h
      exact List.mem_cons_of_mem _ (ih h)

theorem merase_sub {k : κ} {m : List (κ × α)} {e : κ × α} (h : e ∈ merase k m) :
    e ∈ m := by
  induction m with
  | nil => simp [merase] at h
  | cons f t ih =>
    by_cases hf : f.1 = k
    · rw [show merase k (f :: t) = merase k t by simp [merase, hf]] at h
      exact List.mem_cons_of_mem _ (ih h)
    · rw [show merase k (f :: t) = f :: merase k t by simp [merase, hf]] at h
      rcases List.mem_cons.1 h with h1 | h1
      · rw [h1]; exact List.mem_cons_self _ _
      · exact List.mem_cons_of_mem _ (ih h1)

theorem merase_ne_key {k : κ} {m : List (κ × α)} {e : κ × α} (h : e ∈ merase k m) :
    e.1 ≠ k := by
  induction m with
  | nil => simp [merase] at h
  | cons f t ih =>
    by_cases hf : f.1 = k
    · rw [show merase k (f :: t) = merase k t by simp [merase, hf]] at h
      exact ih h
    · rw [show merase k (f :: t) = f :: merase k t by simp [merase, hf]] at h
      rcases List.mem_cons.1 h with h1 | h1
      · rw [h1]; exact hf
      · exact ih h1

theorem merase_of_not_mem {k : κ} {m : List (κ × α)} (h : ∀ e ∈ m, e.1 ≠ k) :
    merase k m = m := by
  induction m with
  | nil => rfl
  | cons f t ih =>
    have hf : f.1 ≠ k := h f (List.mem_cons_self _ _)
    rw [show merase k (f :: t) = f :: merase k t by simp [merase, hf]]
    rw [ih (fun e he => h e (List.mem_cons_of_mem _ he))]

theorem mlookup_merase_ne {j k : κ} {m : List (κ × α)} (h : j ≠ k) :
    mlookup j (merase k m) = mlookup j m := by
  induction m with
  | nil => rfl
  | cons f t ih =>
    by_cases hf : f.1 = k
    · have hfj : ¬f.1 = j := by rw [hf]; exact fun hh => h hh.symm
      rw [show merase k (f :: t) = merase k t by simp [merase, hf]]
      rw [show mlookup j (f :: t) = mlookup j t by simp [mlookup, hfj]]
      exact ih
    · rw [show merase k (f :: t) = f :: merase k t by simp [merase, hf]]
      by_cases hj : f.1 = j
      · simp [mlookup, hj]
      · simp only [mlookup, if_neg hj]
        exact ih

theorem mlookup_minsert_self {k : κ} {v : α} {m : List (κ × α)} :
    mlookup k (minsert k v m) = some v := by
  simp [minsert, mlookup]

theorem mlookup_minsert_ne {j k : κ} {v : α} {m : List (κ × α)} (h : j ≠ k) :
    mlookup j (minsert k v m) = mlookup j m := by
  have hkj : ¬(k, v).1 = j := fun hh => h (hh.symm)
  rw [show mlookup j (minsert k v m) = mlookup j (merase k m) by
    simp [minsert, mlookup, hkj]]
  exact mlookup_merase_ne h

theorem keys_mupdate {k : κ} {v : α} {m : List (κ × α)} :
    (mupdate k v m).map Prod.fst = m.map Prod.fst := by
  induction m with
  | nil => rfl
  | cons f t ih =>
    by_cases hf : f.1 = k
    · simp only [mupdate, if_pos hf, List.map_cons, ih]
      rw [hf]
    · simp only [mupdate, if_neg hf, List.map_cons, ih]

theorem mlookup_mupdate_self {k : κ} {v : α} {m : List (κ × α)} {l : α}
    (h : mlookup k m = some l) : mlookup k (mupdate k v m) = some v := by
  induction m with
  | nil => simp [mlookup] at h
  | cons f t ih =>
    by_cases hf : f.1 = k
    · simp [mupdate, if_pos hf, mlookup]
    · simp only [mlookup, if_neg hf] at h
      simp only [mupdate, if_neg hf, mlookup, if_neg hf]
      exact ih h

theorem mlookup_mupdate_ne {j k : κ} {v : α} {m : List (κ × α)} (h : j ≠ k) :
    mlookup j (mupdate k v m) = mlookup j m := by
  induction m with
  | nil => rfl
  | cons f t ih =>
    by_cases hf : f.1 = k
    · have hkj : ¬(k : κ) = j := fun hh => h hh.symm
      have hfj : ¬f.1 = j := by rw [hf]; exact hkj
      simp only [mupdate, if_pos hf, mlookup, if_neg hfj]
      rw [if_neg hkj]
      exact ih
    · simp only [mupdate, if_neg hf, mlookup]
      by_cases hj : f.1 = j
      · simp [hj]
      · simp only [if_neg hj]
        exact ih

theorem mupdate_of_not_mem {k : κ} {v : α} {m : List (κ × α)}
    (h : mlookup k m = none) : mupdate k v m = m := by
  induction m with
  | nil => rfl
  | cons f t ih =>
    by_cases hf : f.1 = k
    · simp [mlookup, if_pos hf] at h
    · simp only [mlookup, if_neg hf] at h
      simp only [mupdate, if_neg hf]
      rw [ih h]

theorem mupdate_self {k : κ} {m : List (κ × α)} {l : α} (hnd : keysND m)
    (h : mlookup k m = some l) : mupdate k l m = m := by
  induction m with
  | nil => rfl
  | cons f t ih =>
    have hnd' : keysND t := (List.nodup_cons.1 hnd).2
    by_cases hf : f.1 = k
    · simp only [mlookup, if_pos hf, Option.some.injEq] at h
      have hout : f.1 ∉ t.map Prod.fst := (List.nodup_cons.1 hnd).1
      have ht : mupdate k l t = t := by
        apply mupdate_of_not_mem
        rw [mlookup_eq_none_iff]
        intro e he hek
        exact hout (hf ▸ hek ▸ List.mem_map_of_mem Prod.fst he)
      have hfl : (k, l) = f := by rw [← hf, ← h]
      simp only [mupdate, if_pos hf]
      rw [ht, hfl]
    · simp only [mlookup, if_neg hf] at h
      simp only [mupdate, if_neg hf]
      rw [ih hnd' h]

theorem merase_mupdate {k : κ} {v : α} {m : List (κ × α)} :
    merase k (mupdate k v m) = merase k m := by
  induction m with
  | nil => rfl
  | cons f t ih =>
    by_cases hf : f.1 = k
    · rw [show mupdate k v (f :: t) = (k, v) :: mupdate k v t by simp [mupdate, hf]]
      rw [show merase k ((k, v) :: mupdate k v t) = merase k (mupdate k v t) by
        simp [merase]]
      rw [show merase k (f :: t) = merase k t by simp [merase, hf]]
      exact ih
    · rw [show mupdate k v (f :: t) = f :: mupdate k v t by simp [mupdate, hf]]
      rw [show merase k (f :: mupdate k v t) = f :: merase k (mupdate k v t) by
        simp [merase, hf]]
      rw [show merase k (f :: t) = f :: merase k t by simp [merase, hf]]
      rw [ih]

theorem merase_idem {k : κ} {m : List (κ × α)} :
    merase k (merase k m) = merase k m :=
  merase_of_not_mem (fun _ he => merase_ne_key he)

theorem merase_minsert {k : κ} {v : α} {m : List (κ × α)} :
    merase k (minsert k v m) = merase k m := by
  rw [show merase k (minsert k v m) = merase k (merase k m) by simp [minsert, merase]]
  exact merase_idem

theorem keysND_merase {k : κ} {m : List (κ × α)} (h : keysND m) :
    keysND (merase k m) := by
  induction m with
  | nil => exact h
  | cons f t ih =>
    have h1 := (List.nodup_cons.1 h).1
    have h2 := ih (List.nodup_cons.1 h).2
    by_cases hf : f.1 = k
    · rw [show merase k (f :: t) = merase k t by simp [merase, hf]]
      exact h2
    · rw [show merase k (f :: t) = f :: merase k t by simp [merase, hf]]
      refine List.nodup_cons.2 ⟨fun hmem => ?_, h2⟩
      rcases List.mem_map.1 hmem with ⟨e, he, hee⟩
      exact h1 (hee ▸ List.mem_map_of_mem Prod.fst (merase_sub he))

theorem keysND_minsert {k : κ} {v : α} {m : List (κ × α)} (h : keysND m) :
    keysND (minsert k v m) := by
  refine List.nodup_cons.2 ⟨fun hmem => ?_, keysND_merase h⟩
  rcases List.mem_map.1 hmem with ⟨e, he, hee⟩
  exact merase_ne_key he hee

theorem keysND_mupdate {k : κ} {v : α} {m : List (κ × α)} (h : keysND m) :
    keysND (mupdate k v m) := by
  unfold keysND
  rw [keys_mupdate]
  exact h

theorem mem_mupdate {k : κ} {v : α} {m : List (κ × α)} {e : κ × α}
    (h : e ∈ mupdate k v m) : e ∈ m ∨ e = (k, v) := by
  induction m with
  | nil => simp [mupdate] at h
  | cons f t ih =>
    rcases List.mem_cons.1 h with h1 | h1
    · by_cases hf : f.1 = k
      · rw [if_pos hf] at h1
        right; exact h1
      · rw [if_neg hf] at h1
        left; rw [h1]; exact List.mem_cons_self _ _
    · rcases ih h1 with h2 | h2
      · left; exact List.mem_cons_of_mem _ h2
      · right; exact h2

theorem mlookup_isSome_iff {k : κ} {m : List (κ × α)} :
    (mlookup k m).isSome = true ↔ ∃ e ∈ m, e.1 = k := by
  induction m with
  | nil => simp [mlookup]
  | cons f t ih =>
    by_cases hf : f.1 = k
    · simp [mlookup, hf]
    · simp [mlookup, hf, ih]

theorem merase_length_of_not_mem {k : κ} {m : List (κ × α)}
    (h : mlookup k m = none) : (merase k m).length = m.length := by
  rw [merase_of_not_mem (mlookup_eq_none_iff.1 h)]

end MapLemmas

@[simp] theorem Limit.limit_price_mk (p : Rat) (ords : List (Nat × Order))
    (par : Option Limit) (sz tv : Rat) (oc : Nat) :
    (Limit.mk p ords par sz tv oc).limit_price = p := rfl

@[simp] theorem Limit.orders_mk (p : Rat) (ords : List (Nat × Order))
    (par : Option Limit) (sz tv : Rat) (oc : Nat) :
    (Limit.mk p ords par sz tv oc).orders = ords := rfl

@[simp] theorem Limit.parent_mk (p : Rat) (ords : List (Nat × Order))
    (par : Option Limit) (sz tv : Rat) (oc : Nat) :
    (Limit.mk p ords par sz tv oc).parent = par := rfl

@[simp] theorem Limit.size_mk (p : Rat) (ords : List (Nat × Order))
    (par : Option Limit) (sz tv : Rat) (oc : Nat) :
    (Limit.mk p ords par sz tv oc).size = sz := rfl

@[simp] theorem Limit.total_volume_mk (p : Rat) (ords : List (Nat × Order))
    (par : Option Limit) (sz tv : Rat) (oc : Nat) :
    (Limit.mk p ords par sz tv oc).total_volume = tv := rfl

@[simp] theorem Limit.order_count_mk (p : Rat) (ords : List (Nat × Order))
    (par : Option Limit) (sz tv : Rat) (oc : Nat) :
    (Limit.mk p ords par sz tv oc).order_count = oc := rfl

theorem Limit.addOrder_mk (p : Rat) (ords : List (Nat × Order))
    (par : Option Limit) (sz tv : Rat) (oc : Nat) (o : Order) :
    (Limit.mk p ords par sz tv oc).addOrder o =
      .mk p (minsert o.exchange_id o ords) par (sz + o.shares)
        (tv + o.shares * o.limit_price) (oc + 1) := rfl

theorem Limit.removeOrder_found_empty {p : Rat} {ords : List (Nat × Order)}
    {sz tv : Rat} {oc : Nat} {o r : Order}
    (hl : mlookup o.exchange_id ords = some r)
    (he : (merase o.exchange_id ords).isEmpty = true) :
    (Limit.mk p ords none sz tv oc).removeOrder o =
      .mk p (merase o.exchange_id ords) none 0 0 0 := by
  simp [Limit.removeOrder, hl, he]

theorem Limit.removeOrder_found_nonempty {p : Rat} {ords : List (Nat × Order)}
    {sz tv : Rat} {oc : Nat} {o r : Order}
    (hl : mlookup o.exchange_id ords = some r)
    (he : (merase o.exchange_id ords).isEmpty = false) :
    (Limit.mk p ords none sz tv oc).removeOrder o =
      .mk p (merase o.exchange_id ords) none (sz - r.shares)
        (tv - r.shares * r.limit_price) (oc - 1) := by
  simp [Limit.removeOrder, hl, he]

theorem Limit.removeOrder_notfound_empty {p : Rat} {ords : List (Nat × Order)}
    {sz tv : Rat} {oc : Nat} {o : Order}
    (hl : mlookup o.exchange_id ords = none) (he : ords.isEmpty = true) :
    (Limit.mk p ords none sz tv oc).removeOrder o = .mk p ords none 0 0 0 := by
  simp [Limit.removeOrder, hl, he]

theorem Limit.removeOrder_notfound_nonempty {p : Rat} {ords : List (Nat × Order)}
    {sz tv : Rat} {oc : Nat} {o : Order}
    (hl : mlookup o.exchange_id ords = none) (he : ords.isEmpty = false) :
    (Limit.mk p ords none sz tv oc).removeOrder o = .mk p ords none sz tv oc := by
  simp [Limit.removeOrder, hl, he]

theorem maxKey_eq_none_iff {m : List (Rat × Limit)} : maxKey m = none ↔ m = [] := by
  cases m with
  | nil => simp [maxKey]
  | cons e t =>
    cases h : maxKey t with
    | none => simp [maxKey, h]
    | some mm => simp [maxKey, h]

theorem maxKey_mem : ∀ {m : List (Rat × Limit)} {x : Rat},
    maxKey m = some x → ∃ l, (x, l) ∈ m := by
  intro m
  induction m with
  | nil => intro x h; simp [maxKey] at h
  | cons e t ih =>
    intro x h
    cases ht : maxKey t with
    | none =>
      rw [show maxKey (e :: t) = some e.1 by simp [maxKey, ht]] at h
      have hx := Option.some.inj h
      refine ⟨e.2, ?_⟩
      rw [← hx, Prod.mk.eta]
      exact List.mem_cons_self _ _
    | some mm =>
      rw [show maxKey (e :: t) = some (max e.1 mm) by simp [maxKey, ht]] at h
      have hx := Option.some.inj h
      rcases max_choice e.1 mm with hc | hc
      · refine ⟨e.2, ?_⟩
        rw [← hx, hc, Prod.mk.eta]
        exact List.mem_cons_self _ _
      · rcases ih ht with ⟨l, hl⟩
        refine ⟨l, ?_⟩
        rw [← hx, hc]
        exact List.mem_cons_of_mem _ hl

theorem le_maxKey : ∀ {m : List (Rat × Limit)} {x : Rat},
    maxKey m = some x → ∀ e ∈ m, e.1 ≤ x := by
  intro m
  induction m with
  | nil => intro x h; simp [maxKey] at h
  | cons e t ih =>
    intro x h f hf
    cases ht : maxKey t with
    | none =>
      rw [show maxKey (e :: t) = some e.1 by simp [maxKey, ht]] at h
      have hx := Option.some.inj h
      have htn : t = [] := maxKey_eq_none_iff.1 ht
      rcases List.mem_cons.1 hf with h1 | h1
      · rw [h1, hx]
      · rw [htn] at h1; simp at h1
    | some mm =>
      rw [show maxKey (e :: t) = some (max e.1 mm) by simp [maxKey, ht]] at h
      have hx := Option.some.inj h
      rcases List.mem_cons.1 hf with h1 | h1
      · rw [h1, ← hx]; exact le_max_left _ _
      · calc f.1 ≤ mm := ih ht f h1
          _ ≤ max e.1 mm := le_max_right _ _
          _ = x := hx

theorem minKey_eq_none_iff {m : List (Rat × Limit)} : minKey m = none ↔ m = [] := by
  cases m with
  | nil => simp [minKey]
  | cons e t =>
    cases h : minKey t with
    | none => simp [minKey, h]
    | some mm => simp [minKey, h]

theorem minKey_mem : ∀ {m : List (Rat × Limit)} {x : Rat},
    minKey m = some x → ∃ l, (x, l) ∈ m := by
  intro m
  induction m with
  | nil => intro x h; simp [minKey] at h
  | cons e t ih =>
    intro x h
    cases ht : minKey t with
    | none =>
      rw [show minKey (e :: t) = some e.1 by simp [minKey, ht]] at h
      have hx := Option.some.inj h
      refine ⟨e.2, ?_⟩
      rw [← hx, Prod.mk.eta]
      exact List.mem_cons_self _ _
    | some mm =>
      rw [show minKey (e :: t) = some (min e.1 mm) by simp [minKey, ht]] at h
      have hx := Option.some.inj h
      rcases min_choice e.1 mm with hc | hc
      · refine ⟨e.2, ?_⟩
        rw [← hx, hc, Prod.mk.eta]
        exact List.mem_cons_self _ _
      · rcases ih ht with ⟨l, hl⟩
        refine ⟨l, ?_⟩
        rw [← hx, hc]
        exact List.mem_cons_of_mem _ hl

theorem minKey_le : ∀ {m : List (Rat × Limit)} {x : Rat},
    minKey m = some x → ∀ e ∈ m, x ≤ e.1 := by
  intro m
  induction m with
  | nil => intro x h; simp [minKey] at h
  | cons e t ih =>
    intro x h f hf
    cases ht : minKey t with
    | none =>
      rw [show minKey (e :: t) = some e.1 by simp [minKey, ht]] at h
      have hx := Option.some.inj h
      have htn : t = [] := minKey_eq_none_iff.1 ht
      rcases List.mem_cons.1 hf with h1 | h1
      · rw [h1, hx]
      · rw [htn] at h1; simp at h1
    | some mm =>
      rw [show minKey (e :: t) = some (min e.1 mm) by simp [minKey, ht]] at h
      have hx := Option.some.inj h
      rcases List.mem_cons.1 hf with h1 | h1
      · rw [h1, ← hx]; exact min_le_left _ _
      · calc x = min e.1 mm := hx.symm
          _ ≤ mm := min_le_right _ _
          _ ≤ f.1 := ih ht f h1

/-- The `Bid` arm of `execute_order`, as an equation. -/
theorem executeOrder_bid_eq (n : Nat) (b : LimitOrderBook) (o : Order)
    (ho : o.order_type = OrderType.Bid) :
    b.executeOrder n o = (execLoop n o o.limit_price b.asks none).map (fun r =>
      let asks1 :=
        match r.2.2 with
        | some lp => merase lp r.1
        | none => r.1
      { bids := b.bids, asks := asks1, orders := b.orders,
        lowest_ask := minKey asks1, highest_bid := maxKey b.bids }) := by
  unfold LimitOrderBook.executeOrder
  rw [ho]

/-- The `Ask` arm of `execute_order`, as an equation. -/
theorem executeOrder_ask_eq (n : Nat) (b : LimitOrderBook) (o : Order)
    (ho : o.order_type = OrderType.Ask) :
    b.executeOrder n o = (execLoop n o o.limit_price b.bids none).map (fun r =>
      let bids1 :=
        match r.2.2 with
        | some lp => merase lp r.1
        | none => r.1
      { bids := bids1, asks := b.asks, orders := b.orders,
        lowest_ask := minKey b.asks, highest_bid := maxKey bids1 }) := by
  unfold LimitOrderBook.executeOrder
  rw [ho]

/-- Top-of-book consistency: the cached fields are exactly the extreme keys
present in the ordered collections (`none` on an empty side), and the
getters return them. -/
def TopOfBookOK (b : LimitOrderBook) : Prop :=
  (b.highest_bid = none ↔ b.bids = []) ∧
  (∀ x, b.highest_bid = some x → (∃ l, (x, l) ∈ b.bids) ∧ ∀ e ∈ b.bids, e.1 ≤ x) ∧
  (b.lowest_ask = none ↔ b.asks = []) ∧
  (∀ x, b.lowest_ask = some x → (∃ l, (x, l) ∈ b.asks) ∧ ∀ e ∈ b.asks, x ≤ e.1) ∧
  b.getBestBid = b.highest_bid ∧ b.getBestAsk = b.lowest_ask

theorem topOK_of_fields {b : LimitOrderBook}
    (hb : b.highest_bid = maxKey b.bids) (ha : b.lowest_ask = minKey b.asks) :
    TopOfBookOK b := by
  refine ⟨?_, ?_, ?_, ?_, rfl, rfl⟩
  · rw [hb]; exact maxKey_eq_none_iff
  · intro x hx
    rw [hb] at hx
    exact ⟨maxKey_mem hx, le_maxKey hx⟩
  · rw [ha]; exact minKey_eq_none_iff
  · intro x hx
    rw [ha] at hx
    exact ⟨minKey_mem hx, minKey_le hx⟩

theorem addOrder_tops (b : LimitOrderBook) (o : Order) :
    (b.addOrder o).highest_bid = maxKey (b.addOrder o).bids ∧
    (b.addOrder o).lowest_ask = minKey (b.addOrder o).asks := by
  cases ho : o.order_type with
  | Bid =>
    cases hl : mlookup o.limit_price b.bids <;>
      simp [LimitOrderBook.addOrder, ho, hl]
  | Ask =>
    cases hl : mlookup o.limit_price b.asks <;>
      simp [LimitOrderBook.addOrder, ho, hl]

theorem removeOrder_tops (b : LimitOrderBook) (o : Order) :
    (b.removeOrder o).highest_bid = maxKey (b.removeOrder o).bids ∧
    (b.removeOrder o).lowest_ask = minKey (b.removeOrder o).asks := by
  cases ho : o.order_type with
  | Bid =>
    cases hl : mlookup o.limit_price b.bids with
    | none => simp [LimitOrderBook.removeOrder, ho, hl]
    | some l =>
      cases he : (l.removeOrder o).isEmpty <;>
        simp [LimitOrderBook.removeOrder, ho, hl, he]
  | Ask =>
    cases hl : mlookup o.limit_price b.asks with
    | none => simp [LimitOrderBook.removeOrder, ho, hl]
    | some l =>
      cases he : (l.removeOrder o).isEmpty <;>
        simp [LimitOrderBook.removeOrder, ho, hl, he]

theorem executeOrder_tops (n : Nat) (b : LimitOrderBook) (o : Order)
    (b' : LimitOrderBook) (h : b.executeOrder n o = some b') :
    b'.highest_bid = maxKey b'.bids ∧ b'.lowest_ask = minKey b'.asks := by
  cases ho : o.order_type with
  | Bid =>
    rw [executeOrder_bid_eq n b o ho] at h
    cases hr : execLoop n o o.limit_price b.asks none with
    | none => rw [hr] at h; simp at h
    | some r =>
      rw [hr] at h
      obtain ⟨side1, o1, rem⟩ := r
      cases rem <;>
        (simp only [Option.map_some', Option.some.injEq] at h; subst h; exact ⟨rfl, rfl⟩)
  | Ask =>
    rw [executeOrder_ask_eq n b o ho] at h
    cases hr : execLoop n o o.limit_price b.bids none with
    | none => rw [hr] at h; simp at h
    | some r =>
      rw [hr] at h
      obtain ⟨side1, o1, rem⟩ := r
      cases rem <;>
        (simp only [Option.map_some', Option.some.injEq] at h; subst h; exact ⟨rfl, rfl⟩)

/-- C7: after every mutating operation (add_order, remove_order,
execute_order when it completes), the cached `highest_bid` is exactly the
maximum key present in `bids` (`none` iff `bids` is empty), `lowest_ask` is
exactly the minimum key present in `asks` (`none` iff `asks` is empty), and
`get_best_bid` / `get_best_ask` return those cached values. -/
theorem c7_top_of_book_consistent (b : LimitOrderBook) (o : Order) (n : Nat) :
    TopOfBookOK (b.addOrder o) ∧ TopOfBookOK (b.removeOrder o) ∧
    ∀ b', b.executeOrder n o = some b' → TopOfBookOK b' := by
  refine ⟨?_, ?_, ?_⟩
  · exact topOK_of_fields (addOrder_tops b o).1 (addOrder_tops b o).2
  · exact topOK_of_fields (removeOrder_tops b o).1 (removeOrder_tops b o).2
  · intro b' h
    exact topOK_of_fields (executeOrder_tops n b o b' h).1 (executeOrder_tops n b o b' h).2

/-- A taker bid of 200 at limit 10 against the book of the spec's concrete
scenario (bids 100 and 50 at 10; asks 75 at 9 and 100 at 8). -/
def c1Bid1 : Order := ⟨"tick1", 1, .Bid, 100, 10, 0, 0⟩

def c1Bid2 : Order := ⟨"tick2", 2, .Bid, 50, 10, 0, 0⟩

def c1Ask3 : Order := ⟨"tick3", 3, .Ask, 75, 9, 0, 0⟩

def c1Ask4 : Order := ⟨"tick4", 4, .Ask, 100, 8, 0, 0⟩

def c1Taker : Order := ⟨"tick5", 5, .Bid, 200, 10, 0, 0⟩

def c1Book : LimitOrderBook :=
  (((emptyBook.addOrder c1Bid1).addOrder c1Bid2).addOrder c1Ask3).addOrder c1Ask4

/-- C1: the claimed scenario fails on the code.  `execute_order` looks the
taker's own limit price (10) up in the asks map, finds no level there, and
the loop exits immediately: the call returns the book completely unchanged —
the asks at 9 (size 75) and 8 (size 100) are still present, the bid level at
10 still has size 150 (not 175), the flat index still holds exactly ids
4, 3, 2, 1 and nothing rests.  Nothing of the claimed fills happens. -/
theorem c1_execute_fills_nothing :
    c1Book.executeOrder 1 c1Taker = some c1Book ∧
    (mlookup (10 : Rat) c1Book.bids).map Limit.size = some 150 ∧
    (mlookup (9 : Rat) c1Book.asks).map Limit.size = some 75 ∧
    (mlookup (8 : Rat) c1Book.asks).map Limit.size = some 100 ∧
    c1Book.orders.map Prod.fst = [4, 3, 2, 1] ∧
    c1Book.lowest_ask = some 8 ∧ c1Book.highest_bid = some 10 := by
  refine ⟨?_, ?_, ?_, ?_, ?_, ?_, ?_⟩ <;> with_unfolding_all rfl

/-- A resting ask of 100 at price 10 (exchange id 5). -/
def c2Rest : Order := ⟨"tick1", 5, .Ask, 100, 10, 0, 0⟩

/-- A taker bid sharing exchange id 5, of 100 at limit 10. -/
def c2Taker : Order := ⟨"tick2", 5, .Bid, 100, 10, 0, 0⟩

def c2Book : LimitOrderBook := emptyBook.addOrder c2Rest

/-- C2: a resting order that is fully consumed during matching is NOT removed
from the flat index.  Here the resting ask (id 5, 100 shares at 10) is wholly
consumed by the taker: its level's map becomes empty and the level itself is
removed from the asks map, yet the flat `orders` index still holds
`(5, c2Rest)` after `execute_order` returns — `execute_order` never touches
the flat index. -/
theorem c2_consumed_resting_stays_in_index :
    c2Book.executeOrder 1 c2Taker =
      some { bids := [], asks := [], orders := [(5, c2Rest)],
             lowest_ask := none, highest_bid := none } ∧
    mlookup 5 c2Book.orders = some c2Rest := by
  refine ⟨?_, ?_⟩ <;> with_unfolding_all rfl

/-- A first bid: id 1, 10 shares at 100. -/
def c3First : Order := ⟨"tick1", 1, .Bid, 10, 100, 0, 0⟩

/-- A second submission reusing exchange id 1: 5 shares at 100. -/
def c3Dup : Order := ⟨"tick2", 1, .Bid, 5, 100, 0, 0⟩

def c3Book : LimitOrderBook := emptyBook.addOrder c3First

def c3Book2 : LimitOrderBook := c3Book.addOrder c3Dup

/-- C3: submitting an order whose exchange id is already indexed is NOT
rejected and does NOT leave the book unchanged: `add_order` has no duplicate
check.  The flat entry for id 1 is overwritten with the new order, and the
level at 100 double-counts: its size grows from 10 to 15 and its order count
to 2 while its map holds a single stored order. -/
theorem c3_duplicate_add_mutates_book :
    (mlookup (100 : Rat) c3Book.bids).map Limit.size = some 10 ∧
    (mlookup (100 : Rat) c3Book2.bids).map Limit.size = some 15 ∧
    (mlookup (100 : Rat) c3Book2.bids).map Limit.order_count = some 2 ∧
    (mlookup (100 : Rat) c3Book2.bids).map (fun l => l.orders.length) = some 1 ∧
    mlookup 1 c3Book2.orders = some c3Dup ∧
    mlookup 1 c3Book.orders = some c3First := by
  refine ⟨?_, ?_, ?_, ?_, ?_, ?_⟩ <;> with_unfolding_all rfl

/-- An ask with zero shares at price 10 (the code accepts it and creates a
level of size 0). -/
def c6ZeroAsk : Order := ⟨"tick1", 1, .Ask, 0, 10, 0, 0⟩

def c6Book : LimitOrderBook := emptyBook.addOrder c6ZeroAsk

/-- A taker bid of 1 share at limit 10 against the zero-size level. -/
def c6Taker : Order := ⟨"tick2", 2, .Bid, 1, 10, 0, 0⟩

/-- The level the zero-share ask creates. -/
def c6Level : Limit := (Limit.new 10).addOrder c6ZeroAsk

/-- A one-share resting ask at 10. -/
def c6SmallAsk : Order := ⟨"tick3", 1, .Ask, 1, 10, 0, 0⟩

def c6BookPos : LimitOrderBook := emptyBook.addOrder c6SmallAsk

/-- A taker bid of 50 shares at limit 10 against the one-share level. -/
def c6BigTaker : Order := ⟨"tick4", 2, .Bid, 50, 10, 0, 0⟩

theorem c6_stuck_aux : ∀ (n : Nat) (r : Option Rat),
    execLoop n c6Taker 10 [((10 : Rat), c6Level)] r = none := by
  intro n
  induction n with
  | zero => intro r; rfl
  | succ n ih =>
    intro r
    have hstep : execLoop (n + 1) c6Taker 10 [((10 : Rat), c6Level)] r
        = execLoop n c6Taker 10 [((10 : Rat), c6Level)] (some 10) := by
      with_unfolding_all rfl
    rw [hstep]
    exact ih (some 10)

/-- C6: matching does not always terminate, and its step count is not
bounded by what it consumes.  First conjunct: with a zero-size ask level at
the taker's limit price (reachable by submitting a zero-share ask), the
matching loop never finishes — for every fuel bound the loop is still
running (the level is only removed from the map after the loop, and the
iteration price never advances).  Remaining conjuncts: against a single
one-share ask level, a 50-share taker needs 50 loop iterations (49 is not
enough) while consuming nothing at all: afterwards the asks map still has
its one level and the flat index still holds exactly id 1. -/
instance optionEqNoneDec {α : Type} (o : Option α) : Decidable (o = none) :=
  match o with
  | none => isTrue rfl
  | some _ => isFalse (fun h => Option.noConfusion h)

theorem mupdate_mupdate {κ α : Type} [DecidableEq κ] {k : κ} {v1 v2 : α}
    {m : List (κ × α)} : mupdate k v2 (mupdate k v1 m) = mupdate k v2 m := by
  induction m with
  | nil => rfl
  | cons f t ih =>
    by_cases hf : f.1 = k
    · simp [mupdate, hf, ih]
    · simp [mupdate, hf, ih]

theorem isEmpty_eq_false_of_ne {α : Type} {l : List α} (h : l ≠ []) :
    l.isEmpty = false := by
  cases l with
  | nil => exact absurd rfl h
  | cons a t => rfl

theorem Limit.isEmpty_false_of_size {l : Limit} (h : l.size ≠ 0) :
    l.isEmpty = false := by
  simp only [Limit.isEmpty, beq_eq_false_iff_ne, ne_eq]
  exact h

theorem Limit.isEmpty_true_of_size {l : Limit} (h : l.size = 0) :
    l.isEmpty = true := by
  simp only [Limit.isEmpty, beq_iff_eq]
  exact h

theorem sum_split_merase {k : Nat} {ords : List (Nat × Order)} {r : Order}
    (f : Nat × Order → Rat) (hnd : keysND ords) (hl : mlookup k ords = some r) :
    (ords.map f).sum = f (k, r) + ((merase k ords).map f).sum := by
  induction ords with
  | nil => simp [mlookup] at hl
  | cons e t ih =>
    have hnd' : keysND t := (List.nodup_cons.1 hnd).2
    by_cases hf : e.1 = k
    · simp only [mlookup, if_pos hf, Option.some.injEq] at hl
      have hout : e.1 ∉ t.map Prod.fst := (List.nodup_cons.1 hnd).1
      have ht : merase k t = t := by
        apply merase_of_not_mem
        intro e' he' heq
        exact hout (hf ▸ heq ▸ List.mem_map_of_mem Prod.fst he')
      rw [show merase k (e :: t) = merase k t by simp [merase, hf], ht]
      have he : ((k, r) : Nat × Order) = e := by rw [← hf, ← hl]
      rw [List.map_cons, List.sum_cons, he]
    · simp only [mlookup, if_neg hf] at hl
      rw [show merase k (e :: t) = e :: merase k t by simp [merase, hf]]
      rw [List.map_cons, List.sum_cons, List.map_cons, List.sum_cons, ih hnd' hl]
      rw [add_left_comm]

theorem length_split_merase {k : Nat} {ords : List (Nat × Order)} {r : Order}
    (hnd : keysND ords) (hl : mlookup k ords = some r) :
    ords.length = (merase k ords).length + 1 := by
  induction ords with
  | nil => simp [mlookup] at hl
  | cons e t ih =>
    have hnd' : keysND t := (List.nodup_cons.1 hnd).2
    by_cases hf : e.1 = k
    · have hout : e.1 ∉ t.map Prod.fst := (List.nodup_cons.1 hnd).1
      have ht : merase k t = t := by
        apply merase_of_not_mem
        intro e' he' heq
        exact hout (hf ▸ heq ▸ List.mem_map_of_mem Prod.fst he')
      rw [show merase k (e :: t) = merase k t by simp [merase, hf], ht, List.length_cons]
    · simp only [mlookup, if_neg hf] at hl
      rw [show merase k (e :: t) = e :: merase k t by simp [merase, hf]]
      rw [List.length_cons, List.length_cons, ih hnd' hl]

/-- Well-formed price level: no parent, distinct stored ids, and the cached
aggregates are exactly the sums over the stored orders (the state every
level reaches under correct bookkeeping). -/
def LimitWF (l : Limit) : Prop :=
  l.parent = none ∧ keysND l.orders ∧
  l.size = (l.orders.map (fun e => e.2.shares)).sum ∧
  l.total_volume = (l.orders.map (fun e => e.2.shares * e.2.limit_price)).sum ∧
  l.order_count = l.orders.length

/-- C10: on a well-formed level, `Limit::remove_order` changes the aggregates
only if the argument's exchange id is stored: if absent all three aggregates
are unchanged; if present, size shrinks by the removed order's stored size,
total notional by its stored size times its stored price, and the order
count by one; and whenever the order count reaches 0 after the removal, the
size and the total notional are exactly 0. -/
theorem c10_level_remove_effects (l : Limit) (o : Order) (h : LimitWF l) :
    (mlookup o.exchange_id l.orders = none →
      (l.removeOrder o).size = l.size ∧
      (l.removeOrder o).total_volume = l.total_volume ∧
      (l.removeOrder o).order_count = l.order_count) ∧
    (∀ r, mlookup o.exchange_id l.orders = some r →
      (l.removeOrder o).size = l.size - r.shares ∧
      (l.removeOrder o).total_volume = l.total_volume - r.shares * r.limit_price ∧
      (l.removeOrder o).order_count = l.order_count - 1) ∧
    ((l.removeOrder o).order_count = 0 →
      (l.removeOrder o).size = 0 ∧ (l.removeOrder o).total_volume = 0) := by
  obtain ⟨p, ords, par, sz, tv, oc⟩ := l
  obtain ⟨hpar, hnd, hsz, htv, hoc⟩ := h
  simp only [Limit.parent_mk] at hpar
  simp only [Limit.orders_mk] at hnd
  simp only [Limit.size_mk, Limit.orders_mk] at hsz
  simp only [Limit.total_volume_mk, Limit.orders_mk] at htv
  simp only [Limit.order_count_mk, Limit.orders_mk] at hoc
  subst hpar
  simp only [Limit.orders_mk, Limit.size_mk, Limit.total_volume_mk, Limit.order_count_mk]
  refine ⟨?_, ?_, ?_⟩
  · intro hl
    cases he : ords.isEmpty with
    | true =>
      have hords : ords = [] := List.isEmpty_iff.1 he
      have h0 : sz = 0 := by rw [hsz, hords]; simp
      have h1 : tv = 0 := by rw [htv, hords]; simp
      have h2 : oc = 0 := by rw [hoc, hords]; simp
      rw [Limit.removeOrder_notfound_empty hl he]
      simp [h0, h1, h2]
    | false =>
      rw [Limit.removeOrder_notfound_nonempty hl he]
      exact ⟨rfl, rfl, rfl⟩
  · intro r hl
    have hsum := sum_split_merase (fun e => e.2.shares) hnd hl
    have htsum := sum_split_merase (fun e => e.2.shares * e.2.limit_price) hnd hl
    have hlen := length_split_merase hnd hl
    cases he : (merase o.exchange_id ords).isEmpty with
    | true =>
      have hords : merase o.exchange_id ords = [] := List.isEmpty_iff.1 he
      rw [Limit.removeOrder_found_empty hl he]
      rw [hords] at hsum htsum hlen
      simp at hsum htsum hlen
      refine ⟨?_, ?_, ?_⟩
      · simp [hsz, hsum]
      · simp [htv, htsum]
      · simp [hoc, hlen]
    | false =>
      rw [Limit.removeOrder_found_nonempty hl he]
      exact ⟨rfl, rfl, rfl⟩
  · intro h0
    cases hl : mlookup o.exchange_id ords with
    | none =>
      cases he : ords.isEmpty with
      | true =>
        rw [Limit.removeOrder_notfound_empty hl he]
        exact ⟨rfl, rfl⟩
      | false =>
        rw [Limit.removeOrder_notfound_nonempty hl he] at h0 ⊢
        have hords : ords ≠ [] := by
          intro hh
          rw [hh] at he
          simp at he
        simp only [Limit.order_count_mk] at h0
        rw [hoc] at h0
        exact absurd (List.length_eq_zero.1 h0) hords
    | some r =>
      cases he : (merase o.exchange_id ords).isEmpty with
      | true =>
        rw [Limit.removeOrder_found_empty hl he]
        exact ⟨rfl, rfl⟩
      | false =>
        rw [Limit.removeOrder_found_nonempty hl he] at h0 ⊢
        have hmne : merase o.exchange_id ords ≠ [] := by
          intro hh
          rw [hh] at he
          simp at he
        have hlen := length_split_merase hnd hl
        simp only [Limit.order_count_mk] at h0
        rw [hoc, hlen, Nat.add_sub_cancel] at h0
        exact absurd (List.length_eq_zero.1 h0) hmne

/-- Well-formed book: distinct prices per side, every level parent-free with
a nonempty order map and nonzero size, and consistent cached top-of-book
prices — the state every book reaches under valid use. -/
def WFBook (b : LimitOrderBook) : Prop :=
  keysND b.bids ∧ keysND b.asks ∧
  (∀ e ∈ b.bids, e.2.parent = none ∧ e.2.orders ≠ [] ∧ e.2.size ≠ 0) ∧
  (∀ e ∈ b.asks, e.2.parent = none ∧ e.2.orders ≠ [] ∧ e.2.size ≠ 0) ∧
  b.highest_bid = maxKey b.bids ∧ b.lowest_ask = minKey b.asks

/-- C9 (amended): on a well-formed book, cancelling an order whose exchange
id is in neither the flat index nor any level is a no-op — the entire book
state is unchanged — and raises no fault (`remove_order` is a total
function); but no explicit success/failure value is reported: the function's
only output is the book itself paired with the unit value. -/
theorem c9_cancel_missing_noop (b : LimitOrderBook) (o : Order)
    (hwf : WFBook b)
    (hflat : mlookup o.exchange_id b.orders = none)
    (hmissb : ∀ e ∈ b.bids, mlookup o.exchange_id e.2.orders = none)
    (hmissa : ∀ e ∈ b.asks, mlookup o.exchange_id e.2.orders = none) :
    b.removeOrder o = b ∧ b.removeOrderRet o = (b, ()) := by
  obtain ⟨hndb, hnda, hWFb, hWFa, htb, hta⟩ := hwf
  have horders : merase o.exchange_id b.orders = b.orders :=
    merase_of_not_mem (mlookup_eq_none_iff.1 hflat)
  have hmain : b.removeOrder o = b := by
    cases ho : o.order_type with
    | Bid =>
      simp only [LimitOrderBook.removeOrder, ho]
      cases hl : mlookup o.limit_price b.bids with
      | none =>
        simp only [hl, horders, ← htb, ← hta]
      | some l =>
        obtain ⟨hpar, hne, hsz⟩ := hWFb _ (mlookup_mem hl)
        have hm := hmissb _ (mlookup_mem hl)
        obtain ⟨p, ords, par, szv, tvv, ocv⟩ := l
        simp only [Limit.parent_mk] at hpar
        subst hpar
        simp only [Limit.orders_mk] at hne hm
        simp only [Limit.size_mk] at hsz
        have hl1 : (Limit.mk p ords none szv tvv ocv).removeOrder o
            = Limit.mk p ords none szv tvv ocv :=
          Limit.removeOrder_notfound_nonempty hm (isEmpty_eq_false_of_ne hne)
        have hie : (Limit.mk p ords none szv tvv ocv).isEmpty = false :=
          Limit.isEmpty_false_of_size (by simpa using hsz)
        simp only [hl, hl1, hie, Bool.false_eq_true, if_false, horders,
          mupdate_self hndb hl, ← htb, ← hta]
    | Ask =>
      simp only [LimitOrderBook.removeOrder, ho]
      cases hl : mlookup o.limit_price b.asks with
      | none =>
        simp only [hl, horders, ← htb, ← hta]
      | some l =>
        obtain ⟨hpar, hne, hsz⟩ := hWFa _ (mlookup_mem hl)
        have hm := hmissa _ (mlookup_mem hl)
        obtain ⟨p, ords, par, szv, tvv, ocv⟩ := l
        simp only [Limit.parent_mk] at hpar
        subst hpar
        simp only [Limit.orders_mk] at hne hm
        simp only [Limit.size_mk] at hsz
        have hl1 : (Limit.mk p ords none szv tvv ocv).removeOrder o
            = Limit.mk p ords none szv tvv ocv :=
          Limit.removeOrder_notfound_nonempty hm (isEmpty_eq_false_of_ne hne)
        have hie : (Limit.mk p ords none szv tvv ocv).isEmpty = false :=
          Limit.isEmpty_false_of_size (by simpa using hsz)
        simp only [hl, hl1, hie, Bool.false_eq_true, if_false, horders,
          mupdate_self hnda hl, ← htb, ← hta]
  exact ⟨hmain, by rw [LimitOrderBook.removeOrderRet, hmain]⟩

/-- A resting bid (id 1, 10 shares at 100) for the C9 book. -/
def c9Present : Order := ⟨"tick1", 1, .Bid, 10, 100, 0, 0⟩

/-- A cancel argument with exchange id 42, absent from the C9 book. -/
def c9Missing : Order := ⟨"tick2", 42, .Bid, 10, 100, 0, 0⟩

def c9Book : LimitOrderBook := emptyBook.addOrder c9Present

/-- C9 counterexample: `remove_order` returns no explicit success/failure
value.  Its Rust signature returns `()`, so a cancel of an id that is not in
the flat index (42) and a successful cancel (id 1) hand the caller the very
same return value — the claimed "not found" report does not exist.  (The
failed cancel does leave the book unchanged, while the successful one
empties the bid side.) -/
theorem c9_no_explicit_result_reported :
    (c9Book.removeOrderRet c9Missing).2 = (c9Book.removeOrderRet c9Present).2 ∧
    (c9Book.removeOrderRet c9Missing).1 = c9Book ∧
    (c9Book.removeOrderRet c9Present).1.bids = [] ∧
    c9Book.bids.length = 1 := by
  refine ⟨rfl, ?_, ?_, ?_⟩ <;> with_unfolding_all rfl

theorem c9_cancel_missing_noop_witness :
    c9Book.removeOrder c9Missing = c9Book ∧
    c9Book.removeOrderRet c9Missing = (c9Book, ()) := by
  apply c9_cancel_missing_noop c9Book c9Missing
  · refine ⟨?_, ?_, ?_, ?_, ?_, ?_⟩
    · show (c9Book.bids.map Prod.fst).Nodup
      decide
    · show (c9Book.asks.map Prod.fst).Nodup
      decide
    · with_unfolding_all decide
    · with_unfolding_all decide
    · with_unfolding_all rfl
    · with_unfolding_all rfl
  · with_unfolding_all rfl
  · with_unfolding_all decide
  · with_unfolding_all decide

/-- C5: on a well-formed book, submitting an order whose exchange id is
globally fresh (absent from the flat index and from every level) and then
cancelling that same order restores the entire book state — both side maps
with all their level aggregates, the flat index, and the cached best-bid and
best-ask — exactly to their pre-submission values. -/
theorem c5_add_remove_roundtrip (b : LimitOrderBook) (o : Order)
    (hwf : WFBook b)
    (hflat : mlookup o.exchange_id b.orders = none)
    (hmissb : ∀ e ∈ b.bids, mlookup o.exchange_id e.2.orders = none)
    (hmissa : ∀ e ∈ b.asks, mlookup o.exchange_id e.2.orders = none) :
    (b.addOrder o).removeOrder o = b := by
  obtain ⟨hndb, hnda, hWFb, hWFa, htb, hta⟩ := hwf
  have horders : merase o.exchange_id (minsert o.exchange_id o b.orders) = b.orders := by
    rw [merase_minsert]
    exact merase_of_not_mem (mlookup_eq_none_iff.1 hflat)
  cases ho : o.order_type with
  | Bid =>
    cases hl : mlookup o.limit_price b.bids with
    | some l =>
      obtain ⟨hpar, hne, hsz⟩ := hWFb _ (mlookup_mem hl)
      have hm := hmissb _ (mlookup_mem hl)
      obtain ⟨p, ords, par, szv, tvv, ocv⟩ := l
      simp only [Limit.parent_mk] at hpar
      subst hpar
      simp only [Limit.orders_mk] at hne hm
      simp only [Limit.size_mk] at hsz
      have hadd : b.addOrder o =
          { bids := mupdate o.limit_price
              ((Limit.mk p ords none szv tvv ocv).addOrder o) b.bids,
            asks := b.asks, orders := minsert o.exchange_id o b.orders,
            lowest_ask := minKey b.asks,
            highest_bid := maxKey (mupdate o.limit_price
              ((Limit.mk p ords none szv tvv ocv).addOrder o) b.bids) } := by
        simp only [LimitOrderBook.addOrder, ho, hl]
      have hmer : merase o.exchange_id (minsert o.exchange_id o ords) = ords := by
        rw [merase_minsert]
        exact merase_of_not_mem (mlookup_eq_none_iff.1 hm)
      have hrem : ((Limit.mk p ords none szv tvv ocv).addOrder o).removeOrder o
          = Limit.mk p ords none szv tvv ocv := by
        rw [Limit.addOrder_mk]
        rw [Limit.removeOrder_found_nonempty mlookup_minsert_self
          (by rw [hmer]; exact isEmpty_eq_false_of_ne hne)]
        rw [hmer]
        rw [add_sub_cancel_right, add_sub_cancel_right, Nat.add_sub_cancel]
      have hlk : mlookup o.limit_price (mupdate o.limit_price
          ((Limit.mk p ords none szv tvv ocv).addOrder o) b.bids)
          = some ((Limit.mk p ords none szv tvv ocv).addOrder o) :=
        mlookup_mupdate_self hl
      have hie : (Limit.mk p ords none szv tvv ocv).isEmpty = false :=
        Limit.isEmpty_false_of_size (by simpa using hsz)
      rw [hadd]
      simp only [LimitOrderBook.removeOrder, ho, hlk, hrem, hie,
        Bool.false_eq_true, if_false, mupdate_mupdate, mupdate_self hndb hl,
        horders, ← htb, ← hta]
    | none =>
      have hadd : b.addOrder o =
          { bids := minsert o.limit_price
              ((Limit.new o.limit_price).addOrder o) b.bids,
            asks := b.asks, orders := minsert o.exchange_id o b.orders,
            lowest_ask := minKey b.asks,
            highest_bid := maxKey (minsert o.limit_price
              ((Limit.new o.limit_price).addOrder o) b.bids) } := by
        simp only [LimitOrderBook.addOrder, ho, hl]
      have hrem : ((Limit.new o.limit_price).addOrder o).removeOrder o
          = Limit.mk o.limit_price [] none 0 0 0 := by
        rw [show (Limit.new o.limit_price).addOrder o
            = Limit.mk o.limit_price [(o.exchange_id, o)] none (0 + o.shares)
                (0 + o.shares * o.limit_price) (0 + 1) from rfl]
        have hfind : mlookup o.exchange_id [(o.exchange_id, o)] = some o := by
          simp [mlookup]
        have hempt : (merase o.exchange_id [(o.exchange_id, o)]).isEmpty = true := by
          simp [merase]
        rw [Limit.removeOrder_found_empty hfind hempt]
        simp [merase]
      have hlk : mlookup o.limit_price (minsert o.limit_price
          ((Limit.new o.limit_price).addOrder o) b.bids)
          = some ((Limit.new o.limit_price).addOrder o) :=
        mlookup_minsert_self
      have hie : (Limit.mk o.limit_price [] none 0 0 0).isEmpty = true := rfl
      rw [hadd]
      simp only [LimitOrderBook.removeOrder, ho, hlk, hrem, hie, if_true,
        merase_mupdate, merase_minsert,
        merase_of_not_mem (mlookup_eq_none_iff.1 hl), horders, ← htb, ← hta]
  | Ask =>
    cases hl : mlookup o.limit_price b.asks with
    | some l =>
      obtain ⟨hpar, hne, hsz⟩ := hWFa _ (mlookup_mem hl)
      have hm := hmissa _ (mlookup_mem hl)
      obtain ⟨p, ords, par, szv, tvv, ocv⟩ := l
      simp only [Limit.parent_mk] at hpar
      subst hpar
      simp only [Limit.orders_mk] at hne hm
      simp only [Limit.size_mk] at hsz
      have hadd : b.addOrder o =
          { bids := b.bids,
            asks := mupdate o.limit_price
              ((Limit.mk p ords none szv tvv ocv).addOrder o) b.asks,
            orders := minsert o.exchange_id o b.orders,
            lowest_ask := minKey (mupdate o.limit_price
              ((Limit.mk p ords none szv tvv ocv).addOrder o) b.asks),
            highest_bid := maxKey b.bids } := by
        simp only [LimitOrderBook.addOrder, ho, hl]
      have hmer : merase o.exchange_id (minsert o.exchange_id o ords) = ords := by
        rw [merase_minsert]
        exact merase_of_not_mem (mlookup_eq_none_iff.1 hm)
      have hrem : ((Limit.mk p ords none szv tvv ocv).addOrder o).removeOrder o
          = Limit.mk p ords none szv tvv ocv := by
        rw [Limit.addOrder_mk]
        rw [Limit.removeOrder_found_nonempty mlookup_minsert_self
          (by rw [hmer]; exact isEmpty_eq_false_of_ne hne)]
        rw [hmer]
        rw [add_sub_cancel_right, add_sub_cancel_right, Nat.add_sub_cancel]
      have hlk : mlookup o.limit_price (mupdate o.limit_price
          ((Limit.mk p ords none szv tvv ocv).addOrder o) b.asks)
          = some ((Limit.mk p ords none szv tvv ocv).addOrder o) :=
        mlookup_mupdate_self hl
      have hie : (Limit.mk p ords none szv tvv ocv).isEmpty = false :=
        Limit.isEmpty_false_of_size (by simpa using hsz)
      rw [hadd]
      simp only [LimitOrderBook.removeOrder, ho, hlk, hrem, hie,
        Bool.false_eq_true, if_false, mupdate_mupdate, mupdate_self hnda hl,
        horders, ← htb, ← hta]
    | none =>
      have hadd : b.addOrder o =
          { bids := b.bids,
            asks := minsert o.limit_price
              ((Limit.new o.limit_price).addOrder o) b.asks,
            orders := minsert o.exchange_id o b.orders,
            lowest_ask := minKey (minsert o.limit_price
              ((Limit.new o.limit_price).addOrder o) b.asks),
            highest_bid := maxKey b.bids } := by
        simp only [LimitOrderBook.addOrder, ho, hl]
      have hrem : ((Limit.new o.limit_price).addOrder o).removeOrder o
          = Limit.mk o.limit_price [] none 0 0 0 := by
        rw [show (Limit.new o.limit_price).addOrder o
            = Limit.mk o.limit_price [(o.exchange_id, o)] none (0 + o.shares)
                (0 + o.shares * o.limit_price) (0 + 1) from rfl]
        have hfind : mlookup o.exchange_id [(o.exchange_id, o)] = some o := by
          simp [mlookup]
        have hempt : (merase o.exchange_id [(o.exchange_id, o)]).isEmpty = true := by
          simp [merase]
        rw [Limit.removeOrder_found_empty hfind hempt]
        simp [merase]
      have hlk : mlookup o.limit_price (minsert o.limit_price
          ((Limit.new o.limit_price).addOrder o) b.asks)
          = some ((Limit.new o.limit_price).addOrder o) :=
        mlookup_minsert_self
      have hie : (Limit.mk o.limit_price [] none 0 0 0).isEmpty = true := rfl
      rw [hadd]
      simp only [LimitOrderBook.removeOrder, ho, hlk, hrem, hie, if_true,
        merase_mupdate, merase_minsert,
        merase_of_not_mem (mlookup_eq_none_iff.1 hl), horders, ← htb, ← hta]

theorem Limit.addOrder_orders (l : Limit) (o : Order) :
    (l.addOrder o).orders = minsert o.exchange_id o l.orders := by cases l; rfl

theorem Limit.addOrder_size (l : Limit) (o : Order) :
    (l.addOrder o).size = l.size + o.shares := by cases l; rfl

theorem Limit.addOrder_order_count (l : Limit) (o : Order) :
    (l.addOrder o).order_count = l.order_count + 1 := by cases l; rfl

theorem Limit.addOrder_parent (l : Limit) (o : Order) :
    (l.addOrder o).parent = l.parent := by cases l; rfl

theorem mem_eq_of_keysND {κ α : Type} [DecidableEq κ] {s : List (κ × α)} {k : κ}
    {l : α} (hnd : keysND s) (hl : mlookup k s = some l) :
    ∀ e ∈ s, e.1 = k → e = (k, l) := by
  induction s with
  | nil => intro e he; simp at he
  | cons f t ih =>
    intro e he hek
    have hnd' : keysND t := (List.nodup_cons.1 hnd).2
    have hout : f.1 ∉ t.map Prod.fst := (List.nodup_cons.1 hnd).1
    by_cases hf : f.1 = k
    · simp only [mlookup, if_pos hf, Option.some.injEq] at hl
      rcases List.mem_cons.1 he with h1 | h1
      · rw [h1, ← hf, ← hl]
      · have hmem : e.1 ∈ t.map Prod.fst := List.mem_map_of_mem Prod.fst h1
        rw [hek, ← hf] at hmem
        exact absurd hmem hout
    · simp only [mlookup, if_neg hf] at hl
      rcases List.mem_cons.1 he with h1 | h1
      · exact absurd (h1 ▸ hek) hf
      · exact ih hnd' hl e h1 hek

/-- The flat index after `add_order` (both sides insert the same way). -/
theorem addOrder_orders_field (b : LimitOrderBook) (o : Order) :
    (b.addOrder o).orders = minsert o.exchange_id o b.orders := by
  cases ho : o.order_type with
  | Bid =>
    cases hl : mlookup o.limit_price b.bids <;>
      simp [LimitOrderBook.addOrder, ho, hl]
  | Ask =>
    cases hl : mlookup o.limit_price b.asks <;>
      simp [LimitOrderBook.addOrder, ho, hl]

/-- The flat index after `remove_order` (the id is erased unconditionally). -/
theorem removeOrder_orders_field (b : LimitOrderBook) (o : Order) :
    (b.removeOrder o).orders = merase o.exchange_id b.orders := by
  cases ho : o.order_type with
  | Bid =>
    cases hl : mlookup o.limit_price b.bids with
    | none => simp [LimitOrderBook.removeOrder, ho, hl]
    | some l =>
      cases he : (l.removeOrder o).isEmpty <;>
        simp [LimitOrderBook.removeOrder, ho, hl, he]
  | Ask =>
    cases hl : mlookup o.limit_price b.asks with
    | none => simp [LimitOrderBook.removeOrder, ho, hl]
    | some l =>
      cases he : (l.removeOrder o).isEmpty <;>
        simp [LimitOrderBook.removeOrder, ho, hl, he]

/-- How many levels of one side contain the exchange id in their order map. -/
def sideWithId : List (Rat × Limit) → Nat → Nat
  | [], _ => 0
  | e :: t, i =>
    (if (mlookup i e.2.orders).isSome = true then 1 else 0) + sideWithId t i

/-- How many levels of the whole book contain the exchange id. -/
def levelsWithId (b : LimitOrderBook) (i : Nat) : Nat :=
  sideWithId b.bids i + sideWithId b.asks i

theorem sideWithId_zero {s : List (Rat × Limit)} {i : Nat}
    (h : ∀ e ∈ s, mlookup i e.2.orders = none) : sideWithId s i = 0 := by
  induction s with
  | nil => rfl
  | cons f t ih =>
    have hf := h f (List.mem_cons_self _ _)
    simp only [sideWithId, hf, Option.isSome_none, Bool.false_eq_true, if_false]
    simpa using ih (fun e he => h e (List.mem_cons_of_mem _ he))

theorem sideWithId_mupdate_same {s : List (Rat × Limit)} {k : Rat} {l v : Limit}
    {i : Nat} (hnd : keysND s) (hl : mlookup k s = some l)
    (hpred : (mlookup i v.orders).isSome = (mlookup i l.orders).isSome) :
    sideWithId (mupdate k v s) i = sideWithId s i := by
  induction s with
  | nil => rfl
  | cons f t ih =>
    have hnd' : keysND t := (List.nodup_cons.1 hnd).2
    have hout : f.1 ∉ t.map Prod.fst := (List.nodup_cons.1 hnd).1
    by_cases hf : f.1 = k
    · simp only [mlookup, if_pos hf, Option.some.injEq] at hl
      have ht : mupdate k v t = t := by
        apply mupdate_of_not_mem
        rw [mlookup_eq_none_iff]
        intro e he hek
        exact hout (hf ▸ hek ▸ List.mem_map_of_mem Prod.fst he)
      simp only [mupdate, if_pos hf, sideWithId, ht]
      rw [hpred, ← hl]
    · simp only [mlookup, if_neg hf] at hl
      simp only [mupdate, if_neg hf, sideWithId]
      rw [ih hnd' hl]

theorem sideWithId_mupdate_one {s : List (Rat × Limit)} {k : Rat} {l v : Limit}
    {i : Nat} (hnd : keysND s) (hl : mlookup k s = some l)
    (hv : (mlookup i v.orders).isSome = true)
    (hothers : ∀ e ∈ s, e.1 ≠ k → mlookup i e.2.orders = none) :
    sideWithId (mupdate k v s) i = 1 := by
  induction s with
  | nil => simp [mlookup] at hl
  | cons f t ih =>
    have hnd' : keysND t := (List.nodup_cons.1 hnd).2
    have hout : f.1 ∉ t.map Prod.fst := (List.nodup_cons.1 hnd).1
    by_cases hf : f.1 = k
    · have ht : mupdate k v t = t := by
        apply mupdate_of_not_mem
        rw [mlookup_eq_none_iff]
        intro e he hek
        exact hout (hf ▸ hek ▸ List.mem_map_of_mem Prod.fst he)
      have htz : sideWithId t i = 0 := by
        apply sideWithId_zero
        intro e he
        apply hothers e (List.mem_cons_of_mem _ he)
        intro hek
        exact hout (hf ▸ hek ▸ List.mem_map_of_mem Prod.fst he)
      simp only [mupdate, if_pos hf, sideWithId, ht, htz]
      simp [hv]
    · simp only [mlookup, if_neg hf] at hl
      have hfn := hothers f (List.mem_cons_self _ _) hf
      simp only [mupdate, if_neg hf, sideWithId, hfn, Option.isSome_none,
        Bool.false_eq_true, if_false]
      simpa using ih hnd' hl (fun e he => hothers e (List.mem_cons_of_mem _ he))

theorem sideWithId_merase_none {s : List (Rat × Limit)} {k : Rat} {i : Nat}
    (h : ∀ e ∈ s, e.1 = k → mlookup i e.2.orders = none) :
    sideWithId (merase k s) i = sideWithId s i := by
  induction s with
  | nil => rfl
  | cons f t ih =>
    by_cases hf : f.1 = k
    · have hfn := h f (List.mem_cons_self _ _) hf
      rw [show merase k (f :: t) = merase k t by simp [merase, hf]]
      simp only [sideWithId, hfn, Option.isSome_none, Bool.false_eq_true, if_false]
      simpa using ih (fun e he => h e (List.mem_cons_of_mem _ he))
    · rw [show merase k (f :: t) = f :: merase k t by simp [merase, hf]]
      simp only [sideWithId]
      rw [ih (fun e he => h e (List.mem_cons_of_mem _ he))]

theorem sideWithId_minsert_fresh_one {s : List (Rat × Limit)} {k : Rat} {v : Limit}
    {i : Nat} (hl : mlookup k s = none)
    (hv : (mlookup i v.orders).isSome = true)
    (hothers : ∀ e ∈ s, mlookup i e.2.orders = none) :
    sideWithId (minsert k v s) i = 1 := by
  have hm : merase k s = s := merase_of_not_mem (mlookup_eq_none_iff.1 hl)
  have hz : sideWithId s i = 0 := sideWithId_zero hothers
  simp only [minsert, hm, sideWithId, hz]
  simp [hv]

theorem sideWithId_minsert_same {s : List (Rat × Limit)} {k : Rat} {v : Limit}
    {i : Nat} (hl : mlookup k s = none)
    (hv : mlookup i v.orders = none) :
    sideWithId (minsert k v s) i = sideWithId s i := by
  have hm : merase k s = s := merase_of_not_mem (mlookup_eq_none_iff.1 hl)
  simp only [minsert, hm, sideWithId]
  simp [hv]

theorem sum_shares_pos {l : List (Nat × Order)} (hne : l ≠ [])
    (hpos : ∀ f ∈ l, 0 < f.2.shares) :
    0 < (l.map (fun f => f.2.shares)).sum := by
  cases l with
  | nil => exact absurd rfl hne
  | cons f t =>
    rw [List.map_cons, List.sum_cons]
    have h1 : 0 < f.2.shares := hpos f (List.mem_cons_self _ _)
    have h2 : 0 ≤ (t.map (fun f => f.2.shares)).sum := by
      apply List.sum_nonneg
      intro x hx
      rcases List.mem_map.1 hx with ⟨e, he, hee⟩
      exact hee ▸ le_of_lt (hpos e (List.mem_cons_of_mem _ he))
    exact add_pos_of_pos_of_nonneg h1 h2

/-- One operation of a submit/cancel sequence. -/
inductive BookOp where
  | add (o : Order)
  | remove (o : Order)

def applyOp (b : LimitOrderBook) : BookOp → LimitOrderBook
  | .add o => b.addOrder o
  | .remove o => b.removeOrder o

/-- Run a sequence of submit/cancel operations from a starting book. -/
def runOps (b : LimitOrderBook) (ops : List BookOp) : LimitOrderBook :=
  ops.foldl applyOp b

/-- The orders submitted by a sequence, in order. -/
def addsOf : List BookOp → List Order
  | [] => []
  | .add o :: t => o :: addsOf t
  | .remove _ :: t => addsOf t

/-- Valid input per the spec: submitted exchange ids are pairwise distinct
(the collaborator guarantees globally unique ids) and sizes are positive. -/
def ValidOps (ops : List BookOp) : Prop :=
  ((addsOf ops).map Order.exchange_id).Nodup ∧ ∀ o ∈ addsOf ops, 0 < o.shares

/-- The invariant C4 claims: every reachable level has positive size, and
every order in the flat index is stored in exactly one level of the book. -/
def ClaimC4 (b : LimitOrderBook) : Prop :=
  (∀ e ∈ b.bids, 0 < e.2.size) ∧ (∀ e ∈ b.asks, 0 < e.2.size) ∧
  ∀ e ∈ b.orders, levelsWithId b e.1 = 1

/-- Internal level invariant: parent-free, distinct positive orders whose ids
were all submitted, with an exact size aggregate. -/
def levelOK (used : List Nat) (l : Limit) : Prop :=
  l.parent = none ∧ keysND l.orders ∧ l.orders ≠ [] ∧
  (∀ f ∈ l.orders, 0 < f.2.shares ∧ f.1 ∈ used) ∧
  l.size = (l.orders.map (fun f => f.2.shares)).sum

def sideInv (used : List Nat) (s : List (Rat × Limit)) : Prop :=
  keysND s ∧ ∀ e ∈ s, levelOK used e.2

/-- Internal book invariant for C4, relative to the set of submitted ids. -/
def InvC4 (used : List Nat) (b : LimitOrderBook) : Prop :=
  sideInv used b.bids ∧ sideInv used b.asks ∧
  (∀ e ∈ b.orders, e.1 ∈ used) ∧
  (∀ e ∈ b.orders, levelsWithId b e.1 = 1)

theorem levelOK_mono {used used' : List Nat} {l : Limit}
    (hsub : ∀ i ∈ used, i ∈ used') (h : levelOK used l) : levelOK used' l :=
  ⟨h.1, h.2.1, h.2.2.1,
    fun f hf => ⟨(h.2.2.2.1 f hf).1, hsub _ (h.2.2.2.1 f hf).2⟩, h.2.2.2.2⟩

theorem sideInv_mono {used used' : List Nat} {s : List (Rat × Limit)}
    (hsub : ∀ i ∈ used, i ∈ used') (h : sideInv used s) : sideInv used' s :=
  ⟨h.1, fun e he => levelOK_mono hsub (h.2 e he)⟩

theorem sideInv_mupdate {used : List Nat} {s : List (Rat × Limit)} {k : Rat}
    {v : Limit} (hs : sideInv used s) (hv : levelOK used v) :
    sideInv used (mupdate k v s) := by
  refine ⟨keysND_mupdate hs.1, ?_⟩
  intro e he
  rcases mem_mupdate he with h1 | h1
  · exact hs.2 e h1
  · rw [h1]; exact hv

theorem sideInv_minsert {used : List Nat} {s : List (Rat × Limit)} {k : Rat}
    {v : Limit} (hs : sideInv used s) (hv : levelOK used v) :
    sideInv used (minsert k v s) := by
  refine ⟨keysND_minsert hs.1, ?_⟩
  intro e he
  simp only [minsert] at he
  rcases List.mem_cons.1 he with h1 | h1
  · rw [h1]; exact hv
  · exact hs.2 e (merase_sub h1)

theorem not_in_side {used : List Nat} {s : List (Rat × Limit)} {i : Nat}
    (h : sideInv used s) (hi : i ∉ used) :
    ∀ e ∈ s, mlookup i e.2.orders = none := by
  intro e he
  rw [mlookup_eq_none_iff]
  intro f hf heq
  exact hi (heq ▸ ((h.2 e he).2.2.2.1 f hf).2)

theorem levelOK_addOrder {used : List Nat} {l : Limit} {o : Order}
    (h : levelOK used l) (hpos : 0 < o.shares)
    (hmiss : mlookup o.exchange_id l.orders = none) :
    levelOK (o.exchange_id :: used) (l.addOrder o) := by
  obtain ⟨hpar, hknd, hne, hent, hsz⟩ := h
  have hmo : merase o.exchange_id l.orders = l.orders :=
    merase_of_not_mem (mlookup_eq_none_iff.1 hmiss)
  refine ⟨?_, ?_, ?_, ?_, ?_⟩
  · rw [Limit.addOrder_parent]; exact hpar
  · rw [Limit.addOrder_orders]; exact keysND_minsert hknd
  · rw [Limit.addOrder_orders]; simp [minsert]
  · rw [Limit.addOrder_orders]
    intro f hf
    simp only [minsert] at hf
    rcases List.mem_cons.1 hf with h1 | h1
    · rw [h1]; exact ⟨hpos, List.mem_cons_self _ _⟩
    · have h2 := hent f (merase_sub h1)
      exact ⟨h2.1, List.mem_cons_of_mem _ h2.2⟩
  · rw [Limit.addOrder_size, Limit.addOrder_orders, hsz]
    simp only [minsert, hmo, List.map_cons, List.sum_cons]
    exact add_comm _ _

theorem levelOK_new {used : List Nat} {o : Order} (hpos : 0 < o.shares) :
    levelOK (o.exchange_id :: used) ((Limit.new o.limit_price).addOrder o) := by
  have hform : (Limit.new o.limit_price).addOrder o
      = Limit.mk o.limit_price [(o.exchange_id, o)] none (0 + o.shares)
          (0 + o.shares * o.limit_price) (0 + 1) := rfl
  rw [hform]
  refine ⟨rfl, ?_, ?_, ?_, ?_⟩
  · simp [keysND]
  · simp
  · intro f hf
    simp only [Limit.orders_mk, List.mem_singleton] at hf
    rw [hf]
    exact ⟨hpos, List.mem_cons_self _ _⟩
  · simp

theorem all_key_of_merase_nil {κ α : Type} [DecidableEq κ] {k : κ}
    {m : List (κ × α)} (h : merase k m = []) : ∀ f ∈ m, f.1 = k := by
  induction m with
  | nil => intro f hf; simp at hf
  | cons g t ih =>
    intro f hf
    by_cases hg : g.1 = k
    · rw [show merase k (g :: t) = merase k t by simp [merase, hg]] at h
      rcases List.mem_cons.1 hf with h1 | h1
      · rw [h1]; exact hg
      · exact ih h f h1
    · rw [show merase k (g :: t) = g :: merase k t by simp [merase, hg]] at h
      simp at h

theorem side_remove_keepBranch {used : List Nat} {s : List (Rat × Limit)}
    {r : Order} {l : Limit} (hs : sideInv used s)
    (hl : mlookup r.limit_price s = some l)
    (he : (l.removeOrder r).isEmpty = false) :
    sideInv used (mupdate r.limit_price (l.removeOrder r) s) ∧
    ∀ i, i ≠ r.exchange_id →
      sideWithId (mupdate r.limit_price (l.removeOrder r) s) i = sideWithId s i := by
  have hOK := hs.2 _ (mlookup_mem hl)
  obtain ⟨p, ords, par, szv, tvv, ocv⟩ := l
  obtain ⟨hpar, hknd, hne, hent, hsz⟩ := hOK
  simp only [Limit.parent_mk] at hpar
  subst hpar
  simp only [Limit.orders_mk] at hknd hne hent
  simp only [Limit.size_mk, Limit.orders_mk] at hsz
  cases hrl : mlookup r.exchange_id ords with
  | none =>
    have hl1 : (Limit.mk p ords none szv tvv ocv).removeOrder r
        = Limit.mk p ords none szv tvv ocv :=
      Limit.removeOrder_notfound_nonempty hrl (isEmpty_eq_false_of_ne hne)
    rw [hl1, mupdate_self hs.1 hl]
    exact ⟨hs, fun i _ => rfl⟩
  | some r0 =>
    cases hme : merase r.exchange_id ords with
    | nil =>
      have hl1 : (Limit.mk p ords none szv tvv ocv).removeOrder r
          = Limit.mk p (merase r.exchange_id ords) none 0 0 0 :=
        Limit.removeOrder_found_empty hrl (by rw [hme]; rfl)
      rw [hl1] at he
      simp [Limit.isEmpty] at he
    | cons f0 t0 =>
      have hmene : merase r.exchange_id ords ≠ [] := by rw [hme]; simp
      have hl1 : (Limit.mk p ords none szv tvv ocv).removeOrder r
          = Limit.mk p (merase r.exchange_id ords) none (szv - r0.shares)
              (tvv - r0.shares * r0.limit_price) (ocv - 1) :=
        Limit.removeOrder_found_nonempty hrl (isEmpty_eq_false_of_ne hmene)
      have hsum : (ords.map (fun f => f.2.shares)).sum
          = r0.shares + ((merase r.exchange_id ords).map (fun f => f.2.shares)).sum := by
        simpa using sum_split_merase (fun f => f.2.shares) hknd hrl
      have hOK1 : levelOK used (Limit.mk p (merase r.exchange_id ords) none
          (szv - r0.shares) (tvv - r0.shares * r0.limit_price) (ocv - 1)) := by
        refine ⟨rfl, keysND_merase hknd, hmene, ?_, ?_⟩
        · intro f hf
          exact hent f (merase_sub hf)
        · show szv - r0.shares = _
          simp only [Limit.orders_mk]
          rw [hsz, hsum]
          ring
      constructor
      · rw [hl1]
        exact sideInv_mupdate hs hOK1
      · intro i hi
        rw [hl1]
        apply sideWithId_mupdate_same hs.1 hl
        simp only [Limit.orders_mk]
        rw [mlookup_merase_ne hi]

theorem side_remove_emptyBranch {used : List Nat} {s : List (Rat × Limit)}
    {r : Order} {l : Limit} (hs : sideInv used s)
    (hl : mlookup r.limit_price s = some l)
    (he : (l.removeOrder r).isEmpty = true) :
    sideInv used (merase r.limit_price (mupdate r.limit_price (l.removeOrder r) s)) ∧
    ∀ i, i ≠ r.exchange_id →
      sideWithId (merase r.limit_price (mupdate r.limit_price (l.removeOrder r) s)) i
        = sideWithId s i := by
  have hOK := hs.2 _ (mlookup_mem hl)
  obtain ⟨p, ords, par, szv, tvv, ocv⟩ := l
  obtain ⟨hpar, hknd, hne, hent, hsz⟩ := hOK
  simp only [Limit.parent_mk] at hpar
  subst hpar
  simp only [Limit.orders_mk] at hknd hne hent
  simp only [Limit.size_mk, Limit.orders_mk] at hsz
  cases hrl : mlookup r.exchange_id ords with
  | none =>
    have hl1 : (Limit.mk p ords none szv tvv ocv).removeOrder r
        = Limit.mk p ords none szv tvv ocv :=
      Limit.removeOrder_notfound_nonempty hrl (isEmpty_eq_false_of_ne hne)
    rw [hl1] at he
    have h0 : szv = 0 := by simpa [Limit.isEmpty] using he
    have hpos0 : (0 : Rat) < szv := by
      rw [hsz]
      exact sum_shares_pos hne (fun f hf => (hent f hf).1)
    exact absurd h0 (ne_of_gt hpos0)
  | some r0 =>
    cases hme : merase r.exchange_id ords with
    | cons f0 t0 =>
      have hmene : merase r.exchange_id ords ≠ [] := by rw [hme]; simp
      have hl1 : (Limit.mk p ords none szv tvv ocv).removeOrder r
          = Limit.mk p (merase r.exchange_id ords) none (szv - r0.shares)
              (tvv - r0.shares * r0.limit_price) (ocv - 1) :=
        Limit.removeOrder_found_nonempty hrl (isEmpty_eq_false_of_ne hmene)
      rw [hl1] at he
      have h0 : szv - r0.shares = 0 := by simpa [Limit.isEmpty] using he
      have hsum : (ords.map (fun f => f.2.shares)).sum
          = r0.shares + ((merase r.exchange_id ords).map (fun f => f.2.shares)).sum := by
        simpa using sum_split_merase (fun f => f.2.shares) hknd hrl
      have hpos0 : (0 : Rat)
          < ((merase r.exchange_id ords).map (fun f => f.2.shares)).sum :=
        sum_shares_pos hmene (fun f hf => (hent f (merase_sub hf)).1)
      have : szv - r0.shares
          = ((merase r.exchange_id ords).map (fun f => f.2.shares)).sum := by
        rw [hsz, hsum]; ring
      rw [this] at h0
      exact absurd h0.symm (ne_of_lt hpos0)
    | nil =>
      have hl1 : (Limit.mk p ords none szv tvv ocv).removeOrder r
          = Limit.mk p (merase r.exchange_id ords) none 0 0 0 :=
        Limit.removeOrder_found_empty hrl (by rw [hme]; rfl)
      rw [hl1, merase_mupdate]
      constructor
      · exact ⟨keysND_merase hs.1, fun e he2 => hs.2 e (merase_sub he2)⟩
      · intro i hi
        apply sideWithId_merase_none
        intro e he2 hek
        have heq := mem_eq_of_keysND hs.1 hl e he2 hek
        rw [heq]
        show mlookup i (Limit.mk p ords none szv tvv ocv).orders = none
        simp only [Limit.orders_mk]
        rw [mlookup_eq_none_iff]
        intro f hf hfi
        exact hi (hfi ▸ (all_key_of_merase_nil hme f hf).symm).symm

theorem invC4_add {used : List Nat} {b : LimitOrderBook} {o : Order}
    (h : InvC4 used b) (hpos : 0 < o.shares) (hfresh : o.exchange_id ∉ used) :
    InvC4 (o.exchange_id :: used) (b.addOrder o) := by
  obtain ⟨hb, ha, hused, hcount⟩ := h
  have hsub : ∀ i ∈ used, i ∈ o.exchange_id :: used :=
    fun i hi => List.mem_cons_of_mem _ hi
  have hnb := not_in_side hb hfresh
  have hna := not_in_side ha hfresh
  have hflat : ∀ e ∈ b.orders, e.1 ≠ o.exchange_id :=
    fun e he heq => hfresh (heq ▸ hused e he)
  have hmflat : merase o.exchange_id b.orders = b.orders := merase_of_not_mem hflat
  cases ho : o.order_type with
  | Bid =>
    cases hl : mlookup o.limit_price b.bids with
    | some l =>
      have hbook : b.addOrder o =
          { bids := mupdate o.limit_price (l.addOrder o) b.bids,
            asks := b.asks, orders := minsert o.exchange_id o b.orders,
            lowest_ask := minKey b.asks,
            highest_bid := maxKey (mupdate o.limit_price (l.addOrder o) b.bids) } := by
        simp only [LimitOrderBook.addOrder, ho, hl]
      rw [hbook]
      have hlOK := hb.2 _ (mlookup_mem hl)
      have hmiss := hnb _ (mlookup_mem hl)
      refine ⟨?_, ?_, ?_, ?_⟩
      · exact sideInv_mupdate (sideInv_mono hsub hb)
          (levelOK_addOrder hlOK hpos hmiss)
      · exact sideInv_mono hsub ha
      · intro e he
        simp only [minsert, hmflat] at he
        rcases List.mem_cons.1 he with h1 | h1
        · rw [h1]; exact List.mem_cons_self _ _
        · exact hsub _ (hused e h1)
      · intro e he
        simp only [minsert, hmflat] at he
        show sideWithId (mupdate o.limit_price (l.addOrder o) b.bids) e.1
            + sideWithId b.asks e.1 = 1
        rcases List.mem_cons.1 he with h1 | h1
        · rw [h1]
          have hv : (mlookup o.exchange_id (l.addOrder o).orders).isSome = true := by
            rw [Limit.addOrder_orders, mlookup_minsert_self]
            rfl
          rw [sideWithId_mupdate_one hb.1 hl hv (fun e' he' _ => hnb e' he'),
            sideWithId_zero hna]
        · have hne2 : e.1 ≠ o.exchange_id := fun heq => hfresh (heq ▸ hused e h1)
          have hpred : (mlookup e.1 (l.addOrder o).orders).isSome
              = (mlookup e.1 l.orders).isSome := by
            rw [Limit.addOrder_orders, mlookup_minsert_ne hne2]
          rw [sideWithId_mupdate_same hb.1 hl hpred]
          exact hcount e h1
    | none =>
      have hbook : b.addOrder o =
          { bids := minsert o.limit_price ((Limit.new o.limit_price).addOrder o) b.bids,
            asks := b.asks, orders := minsert o.exchange_id o b.orders,
            lowest_ask := minKey b.asks,
            highest_bid := maxKey (minsert o.limit_price
              ((Limit.new o.limit_price).addOrder o) b.bids) } := by
        simp only [LimitOrderBook.addOrder, ho, hl]
      rw [hbook]
      refine ⟨?_, ?_, ?_, ?_⟩
      · exact sideInv_minsert (sideInv_mono hsub hb) (levelOK_new hpos)
      · exact sideInv_mono hsub ha
      · intro e he
        simp only [minsert, hmflat] at he
        rcases List.mem_cons.1 he with h1 | h1
        · rw [h1]; exact List.mem_cons_self _ _
        · exact hsub _ (hused e h1)
      · intro e he
        simp only [minsert, hmflat] at he
        show sideWithId (minsert o.limit_price ((Limit.new o.limit_price).addOrder o)
            b.bids) e.1 + sideWithId b.asks e.1 = 1
        rcases List.mem_cons.1 he with h1 | h1
        · rw [h1]
          have hv : (mlookup o.exchange_id
              ((Limit.new o.limit_price).addOrder o).orders).isSome = true := by
            rw [Limit.addOrder_orders, mlookup_minsert_self]
            rfl
          rw [sideWithId_minsert_fresh_one hl hv hnb, sideWithId_zero hna]
        · have hne2 : e.1 ≠ o.exchange_id := fun heq => hfresh (heq ▸ hused e h1)
          have hv2 : mlookup e.1 ((Limit.new o.limit_price).addOrder o).orders
              = none := by
            rw [Limit.addOrder_orders, mlookup_minsert_ne hne2]
            rfl
          rw [sideWithId_minsert_same hl hv2]
          exact hcount e h1
  | Ask =>
    cases hl : mlookup o.limit_price b.asks with
    | some l =>
      have hbook : b.addOrder o =
          { bids := b.bids,
            asks := mupdate o.limit_price (l.addOrder o) b.asks,
            orders := minsert o.exchange_id o b.orders,
            lowest_ask := minKey (mupdate o.limit_price (l.addOrder o) b.asks),
            highest_bid := maxKey b.bids } := by
        simp only [LimitOrderBook.addOrder, ho, hl]
      rw [hbook]
      have hlOK := ha.2 _ (mlookup_mem hl)
      have hmiss := hna _ (mlookup_mem hl)
      refine ⟨?_, ?_, ?_, ?_⟩
      · exact sideInv_mono hsub hb
      · exact sideInv_mupdate (sideInv_mono hsub ha)
          (levelOK_addOrder hlOK hpos hmiss)
      · intro e he
        simp only [minsert, hmflat] at he
        rcases List.mem_cons.1 he with h1 | h1
        · rw [h1]; exact List.mem_cons_self _ _
        · exact hsub _ (hused e h1)
      · intro e he
        simp only [minsert, hmflat] at he
        show sideWithId b.bids e.1
            + sideWithId (mupdate o.limit_price (l.addOrder o) b.asks) e.1 = 1
        rcases List.mem_cons.1 he with h1 | h1
        · rw [h1]
          have hv : (mlookup o.exchange_id (l.addOrder o).orders).isSome = true := by
            rw [Limit.addOrder_orders, mlookup_minsert_self]
            rfl
          rw [sideWithId_mupdate_one ha.1 hl hv (fun e' he' _ => hna e' he'),
            sideWithId_zero hnb]
        · have hne2 : e.1 ≠ o.exchange_id := fun heq => hfresh (heq ▸ hused e h1)
          have hpred : (mlookup e.1 (l.addOrder o).orders).isSome
              = (mlookup e.1 l.orders).isSome := by
            rw [Limit.addOrder_orders, mlookup_minsert_ne hne2]
          rw [sideWithId_mupdate_same ha.1 hl hpred]
          exact hcount e h1
    | none =>
      have hbook : b.addOrder o =
          { bids := b.bids,
            asks := minsert o.limit_price ((Limit.new o.limit_price).addOrder o) b.asks,
            orders := minsert o.exchange_id o b.orders,
            lowest_ask := minKey (minsert o.limit_price
              ((Limit.new o.limit_price).addOrder o) b.asks),
            highest_bid := maxKey b.bids } := by
        simp only [LimitOrderBook.addOrder, ho, hl]
      rw [hbook]
      refine ⟨?_, ?_, ?_, ?_⟩
      · exact sideInv_mono hsub hb
      · exact sideInv_minsert (sideInv_mono hsub ha) (levelOK_new hpos)
      · intro e he
        simp only [minsert, hmflat] at he
        rcases List.mem_cons.1 he with h1 | h1
        · rw [h1]; exact List.mem_cons_self _ _
        · exact hsub _ (hused e h1)
      · intro e he
        simp only [minsert, hmflat] at he
        show sideWithId b.bids e.1 + sideWithId (minsert o.limit_price
            ((Limit.new o.limit_price).addOrder o) b.asks) e.1 = 1
        rcases List.mem_cons.1 he with h1 | h1
        · rw [h1]
          have hv : (mlookup o.exchange_id
              ((Limit.new o.limit_price).addOrder o).orders).isSome = true := by
            rw [Limit.addOrder_orders, mlookup_minsert_self]
            rfl
          rw [sideWithId_minsert_fresh_one hl hv hna, sideWithId_zero hnb]
        · have hne2 : e.1 ≠ o.exchange_id := fun heq => hfresh (heq ▸ hused e h1)
          have hv2 : mlookup e.1 ((Limit.new o.limit_price).addOrder o).orders
              = none := by
            rw [Limit.addOrder_orders, mlookup_minsert_ne hne2]
            rfl
          rw [sideWithId_minsert_same hl hv2]
          exact hcount e h1

theorem invC4_remove {used : List Nat} {b : LimitOrderBook} {r : Order}
    (h : InvC4 used b) : InvC4 used (b.removeOrder r) := by
  obtain ⟨hb, ha, hused, hcount⟩ := h
  cases ho : r.order_type with
  | Bid =>
    cases hl : mlookup r.limit_price b.bids with
    | none =>
      have hbook : b.removeOrder r =
          { bids := b.bids, asks := b.asks,
            orders := merase r.exchange_id b.orders,
            lowest_ask := minKey b.asks, highest_bid := maxKey b.bids } := by
        simp only [LimitOrderBook.removeOrder, ho, hl]
      rw [hbook]
      refine ⟨hb, ha, ?_, ?_⟩
      · intro e he
        exact hused e (merase_sub he)
      · intro e he
        show sideWithId b.bids e.1 + sideWithId b.asks e.1 = 1
        exact hcount e (merase_sub he)
    | some l =>
      cases he : (l.removeOrder r).isEmpty with
      | false =>
        have hbook : b.removeOrder r =
            { bids := mupdate r.limit_price (l.removeOrder r) b.bids,
              asks := b.asks, orders := merase r.exchange_id b.orders,
              lowest_ask := minKey b.asks,
              highest_bid := maxKey (mupdate r.limit_price (l.removeOrder r) b.bids) } := by
          simp only [LimitOrderBook.removeOrder, ho, hl, he, Bool.false_eq_true,
            if_false]
        rw [hbook]
        obtain ⟨hinv, hcnt⟩ := side_remove_keepBranch hb hl he
        refine ⟨hinv, ha, ?_, ?_⟩
        · intro e he2
          exact hused e (merase_sub he2)
        · intro e he2
          show sideWithId (mupdate r.limit_price (l.removeOrder r) b.bids) e.1
              + sideWithId b.asks e.1 = 1
          rw [hcnt e.1 (merase_ne_key he2)]
          exact hcount e (merase_sub he2)
      | true =>
        have hbook : b.removeOrder r =
            { bids := merase r.limit_price
                (mupdate r.limit_price (l.removeOrder r) b.bids),
              asks := b.asks, orders := merase r.exchange_id b.orders,
              lowest_ask := minKey b.asks,
              highest_bid := maxKey (merase r.limit_price
                (mupdate r.limit_price (l.removeOrder r) b.bids)) } := by
          simp only [LimitOrderBook.removeOrder, ho, hl, he, if_true]
        rw [hbook]
        obtain ⟨hinv, hcnt⟩ := side_remove_emptyBranch hb hl he
        refine ⟨hinv, ha, ?_, ?_⟩
        · intro e he2
          exact hused e (merase_sub he2)
        · intro e he2
          show sideWithId (merase r.limit_price
              (mupdate r.limit_price (l.removeOrder r) b.bids)) e.1
              + sideWithId b.asks e.1 = 1
          rw [hcnt e.1 (merase_ne_key he2)]
          exact hcount e (merase_sub he2)
  | Ask =>
    cases hl : mlookup r.limit_price b.asks with
    | none =>
      have hbook : b.removeOrder r =
          { bids := b.bids, asks := b.asks,
            orders := merase r.exchange_id b.orders,
            lowest_ask := minKey b.asks, highest_bid := maxKey b.bids } := by
        simp only [LimitOrderBook.removeOrder, ho, hl]
      rw [hbook]
      refine ⟨hb, ha, ?_, ?_⟩
      · intro e he
        exact hused e (merase_sub he)
      · intro e he
        show sideWithId b.bids e.1 + sideWithId b.asks e.1 = 1
        exact hcount e (merase_sub he)
    | some l =>
      cases he : (l.removeOrder r).isEmpty with
      | false =>
        have hbook : b.removeOrder r =
            { bids := b.bids,
              asks := mupdate r.limit_price (l.removeOrder r) b.asks,
              orders := merase r.exchange_id b.orders,
              lowest_ask := minKey (mupdate r.limit_price (l.removeOrder r) b.asks),
              highest_bid := maxKey b.bids } := by
          simp only [LimitOrderBook.removeOrder, ho, hl, he, Bool.false_eq_true,
            if_false]
        rw [hbook]
        obtain ⟨hinv, hcnt⟩ := side_remove_keepBranch ha hl he
        refine ⟨hb, hinv, ?_, ?_⟩
        · intro e he2
          exact hused e (merase_sub he2)
        · intro e he2
          show sideWithId b.bids e.1
              + sideWithId (mupdate r.limit_price (l.removeOrder r) b.asks) e.1 = 1
          rw [hcnt e.1 (merase_ne_key he2)]
          exact hcount e (merase_sub he2)
      | true =>
        have hbook : b.removeOrder r =
            { bids := b.bids,
              asks := merase r.limit_price
                (mupdate r.limit_price (l.removeOrder r) b.asks),
              orders := merase r.exchange_id b.orders,
              lowest_ask := minKey (merase r.limit_price
                (mupdate r.limit_price (l.removeOrder r) b.asks)),
              highest_bid := maxKey b.bids } := by
          simp only [LimitOrderBook.removeOrder, ho, hl, he, if_true]
        rw [hbook]
        obtain ⟨hinv, hcnt⟩ := side_remove_emptyBranch ha hl he
        refine ⟨hb, hinv, ?_, ?_⟩
        · intro e he2
          exact hused e (merase_sub he2)
        · intro e he2
          show sideWithId b.bids e.1 + sideWithId (merase r.limit_price
              (mupdate r.limit_price (l.removeOrder r) b.asks)) e.1 = 1
          rw [hcnt e.1 (merase_ne_key he2)]
          exact hcount e (merase_sub he2)

theorem claimC4_of_inv {used : List Nat} {b : LimitOrderBook}
    (h : InvC4 used b) : ClaimC4 b := by
  obtain ⟨hb, ha, _, hcount⟩ := h
  refine ⟨?_, ?_, hcount⟩
  · intro e he
    obtain ⟨_, _, hne, hent, hsz⟩ := hb.2 e he
    rw [hsz]
    exact sum_shares_pos hne (fun f hf => (hent f hf).1)
  · intro e he
    obtain ⟨_, _, hne, hent, hsz⟩ := ha.2 e he
    rw [hsz]
    exact sum_shares_pos hne (fun f hf => (hent f hf).1)

theorem invC4_empty : InvC4 [] emptyBook := by
  refine ⟨⟨?_, ?_⟩, ⟨?_, ?_⟩, ?_, ?_⟩ <;> simp [keysND, emptyBook]

theorem addsOf_append (l1 l2 : List BookOp) :
    addsOf (l1 ++ l2) = addsOf l1 ++ addsOf l2 := by
  induction l1 with
  | nil => rfl
  | cons op t ih =>
    cases op with
    | add o => simp [addsOf, ih]
    | remove o => simp [addsOf, ih]

theorem invC4_runOps : ∀ (ops : List BookOp) (used : List Nat) (b : LimitOrderBook),
    InvC4 used b →
    (∀ o ∈ addsOf ops, o.exchange_id ∉ used ∧ 0 < o.shares) →
    ((addsOf ops).map Order.exchange_id).Nodup →
    ∃ used', InvC4 used' (runOps b ops) := by
  intro ops
  induction ops with
  | nil =>
    intro used b hb _ _
    exact ⟨used, hb⟩
  | cons op t ih =>
    intro used b hb hvt hnd
    cases op with
    | add o =>
      rw [show addsOf (BookOp.add o :: t) = o :: addsOf t from rfl] at hvt hnd
      have h1 := hvt o (List.mem_cons_self _ _)
      have hnds : (∀ x ∈ addsOf t, ¬x.exchange_id = o.exchange_id) ∧
          ((addsOf t).map Order.exchange_id).Nodup := by
        simpa using hnd
      apply ih (o.exchange_id :: used) (b.addOrder o) (invC4_add hb h1.2 h1.1)
      · intro o' ho'
        have h2 := hvt o' (List.mem_cons_of_mem _ ho')
        refine ⟨?_, h2.2⟩
        intro hmem
        rcases List.mem_cons.1 hmem with heq | hin
        · exact hnds.1 o' ho' heq
        · exact h2.1 hin
      · exact hnds.2
    | remove r =>
      apply ih used (b.removeOrder r) (invC4_remove hb)
      · simpa [addsOf] using hvt
      · simpa [addsOf] using hnd

/-- C4: after every operation of a valid submit/cancel sequence run from the
empty book (submitted sizes positive, submitted exchange ids pairwise
distinct, as §6 of the spec assumes of callers), every price level reachable
from either side has size strictly greater than 0, and every order in the
flat index is stored in exactly one level on exactly one side.  The
statement quantifies over an arbitrary split `ops ++ rest` of the valid
sequence, so it covers the book after every intermediate operation. -/
theorem c4_submit_cancel_invariant (ops rest : List BookOp)
    (hv : ValidOps (ops ++ rest)) : ClaimC4 (runOps emptyBook ops) := by
  obtain ⟨h1, h2⟩ := hv
  rw [addsOf_append] at h1 h2
  have hnd1 : ((addsOf ops).map Order.exchange_id).Nodup := by
    rw [List.map_append] at h1
    exact (List.nodup_append.1 h1).1
  have hpos1 : ∀ o ∈ addsOf ops, 0 < o.shares := fun o ho =>
    h2 o (List.mem_append_left _ ho)
  obtain ⟨used', hinv⟩ := invC4_runOps ops [] emptyBook invC4_empty
    (fun o ho => ⟨List.not_mem_nil _, hpos1 o ho⟩) hnd1
  exact claimC4_of_inv hinv

def c4Op1 : Order := ⟨"tick1", 1, .Bid, 10, 100, 0, 0⟩

def c4Op2 : Order := ⟨"tick2", 2, .Ask, 5, 120, 0, 0⟩

def c4Ops : List BookOp := [.add c4Op1, .add c4Op2, .remove c4Op1]

theorem c4_submit_cancel_invariant_witness : ClaimC4 (runOps emptyBook c4Ops) :=
  c4_submit_cancel_invariant c4Ops [] (by
    constructor
    · decide
    · decide)

/-- The sum of `order_count` over all levels of a side. -/
def sumCounts (s : List (Rat × Limit)) : Nat :=
  (s.map (fun e => e.2.order_count)).sum

theorem sumCounts_mupdate {s : List (Rat × Limit)} {k : Rat} {l v : Limit}
    (hnd : keysND s) (hl : mlookup k s = some l) :
    sumCounts (mupdate k v s) + l.order_count = sumCounts s + v.order_count := by
  induction s with
  | nil => simp [mlookup] at hl
  | cons f t ih =>
    have hnd' : keysND t := (List.nodup_cons.1 hnd).2
    have hout : f.1 ∉ t.map Prod.fst := (List.nodup_cons.1 hnd).1
    by_cases hf : f.1 = k
    · simp only [mlookup, if_pos hf, Option.some.injEq] at hl
      have ht : mupdate k v t = t := by
        apply mupdate_of_not_mem
        rw [mlookup_eq_none_iff]
        intro e he hek
        exact hout (hf ▸ hek ▸ List.mem_map_of_mem Prod.fst he)
      simp only [mupdate, if_pos hf, ht, sumCounts, List.map_cons, List.sum_cons,
        ← hl]
      omega
    · simp only [mlookup, if_neg hf] at hl
      have := ih hnd' hl
      simp only [mupdate, if_neg hf, sumCounts, List.map_cons, List.sum_cons]
      simp only [sumCounts] at this
      omega

theorem sumCounts_minsert_fresh {s : List (Rat × Limit)} {k : Rat} {v : Limit}
    (hl : mlookup k s = none) :
    sumCounts (minsert k v s) = v.order_count + sumCounts s := by
  have hm : merase k s = s := merase_of_not_mem (mlookup_eq_none_iff.1 hl)
  simp [minsert, hm, sumCounts]

/-- Internal invariant for C8, relative to the submitted ids. -/
def InvC8 (used : List Nat) (b : LimitOrderBook) : Prop :=
  keysND b.bids ∧ keysND b.asks ∧ (∀ e ∈ b.orders, e.1 ∈ used) ∧
  b.orders.length = sumCounts b.bids + sumCounts b.asks

theorem invC8_add {used : List Nat} {b : LimitOrderBook} {o : Order}
    (h : InvC8 used b) (hfresh : o.exchange_id ∉ used) :
    InvC8 (o.exchange_id :: used) (b.addOrder o) := by
  obtain ⟨hndb, hnda, hused, hlen⟩ := h
  have hflat : ∀ e ∈ b.orders, e.1 ≠ o.exchange_id :=
    fun e he heq => hfresh (heq ▸ hused e he)
  have hmflat : merase o.exchange_id b.orders = b.orders := merase_of_not_mem hflat
  have husedN : ∀ e ∈ minsert o.exchange_id o b.orders, e.1 ∈ o.exchange_id :: used := by
    intro e he
    simp only [minsert, hmflat] at he
    rcases List.mem_cons.1 he with h1 | h1
    · rw [h1]; exact List.mem_cons_self _ _
    · exact List.mem_cons_of_mem _ (hused e h1)
  have hlenN : (minsert o.exchange_id o b.orders).length = b.orders.length + 1 := by
    simp [minsert, hmflat]
  cases ho : o.order_type with
  | Bid =>
    cases hl : mlookup o.limit_price b.bids with
    | some l =>
      have hbook : b.addOrder o =
          { bids := mupdate o.limit_price (l.addOrder o) b.bids,
            asks := b.asks, orders := minsert o.exchange_id o b.orders,
            lowest_ask := minKey b.asks,
            highest_bid := maxKey (mupdate o.limit_price (l.addOrder o) b.bids) } := by
        simp only [LimitOrderBook.addOrder, ho, hl]
      rw [hbook]
      refine ⟨keysND_mupdate hndb, hnda, husedN, ?_⟩
      have hsc := sumCounts_mupdate (v := l.addOrder o) hndb hl
      rw [Limit.addOrder_order_count] at hsc
      show (minsert o.exchange_id o b.orders).length
          = sumCounts (mupdate o.limit_price (l.addOrder o) b.bids) + sumCounts b.asks
      rw [hlenN]
      omega
    | none =>
      have hbook : b.addOrder o =
          { bids := minsert o.limit_price ((Limit.new o.limit_price).addOrder o) b.bids,
            asks := b.asks, orders := minsert o.exchange_id o b.orders,
            lowest_ask := minKey b.asks,
            highest_bid := maxKey (minsert o.limit_price
              ((Limit.new o.limit_price).addOrder o) b.bids) } := by
        simp only [LimitOrderBook.addOrder, ho, hl]
      rw [hbook]
      refine ⟨keysND_minsert hndb, hnda, husedN, ?_⟩
      have hsc := sumCounts_minsert_fresh
        (v := (Limit.new o.limit_price).addOrder o) hl
      have hc1 : ((Limit.new o.limit_price).addOrder o).order_count = 1 := rfl
      rw [hc1] at hsc
      show (minsert o.exchange_id o b.orders).length
          = sumCounts (minsert o.limit_price
              ((Limit.new o.limit_price).addOrder o) b.bids) + sumCounts b.asks
      rw [hlenN, hsc]
      omega
  | Ask =>
    cases hl : mlookup o.limit_price b.asks with
    | some l =>
      have hbook : b.addOrder o =
          { bids := b.bids,
            asks := mupdate o.limit_price (l.addOrder o) b.asks,
            orders := minsert o.exchange_id o b.orders,
            lowest_ask := minKey (mupdate o.limit_price (l.addOrder o) b.asks),
            highest_bid := maxKey b.bids } := by
        simp only [LimitOrderBook.addOrder, ho, hl]
      rw [hbook]
      refine ⟨hndb, keysND_mupdate hnda, husedN, ?_⟩
      have hsc := sumCounts_mupdate (v := l.addOrder o) hnda hl
      rw [Limit.addOrder_order_count] at hsc
      show (minsert o.exchange_id o b.orders).length
          = sumCounts b.bids + sumCounts (mupdate o.limit_price (l.addOrder o) b.asks)
      rw [hlenN]
      omega
    | none =>
      have hbook : b.addOrder o =
          { bids := b.bids,
            asks := minsert o.limit_price ((Limit.new o.limit_price).addOrder o) b.asks,
            orders := minsert o.exchange_id o b.orders,
            lowest_ask := minKey (minsert o.limit_price
              ((Limit.new o.limit_price).addOrder o) b.asks),
            highest_bid := maxKey b.bids } := by
        simp only [LimitOrderBook.addOrder, ho, hl]
      rw [hbook]
      refine ⟨hndb, keysND_minsert hnda, husedN, ?_⟩
      have hsc := sumCounts_minsert_fresh
        (v := (Limit.new o.limit_price).addOrder o) hl
      have hc1 : ((Limit.new o.limit_price).addOrder o).order_count = 1 := rfl
      rw [hc1] at hsc
      show (minsert o.exchange_id o b.orders).length
          = sumCounts b.bids + sumCounts (minsert o.limit_price
              ((Limit.new o.limit_price).addOrder o) b.asks)
      rw [hlenN, hsc]
      omega

theorem invC8_runAdds : ∀ (os : List Order) (used : List Nat) (b : LimitOrderBook),
    InvC8 used b →
    (∀ o ∈ os, o.exchange_id ∉ used) →
    ((os.map Order.exchange_id).Nodup) →
    ∃ used', InvC8 used' (os.foldl LimitOrderBook.addOrder b) := by
  intro os
  induction os with
  | nil =>
    intro used b hb _ _
    exact ⟨used, hb⟩
  | cons o t ih =>
    intro used b hb hvt hnd
    have hnds : (∀ x ∈ t, ¬x.exchange_id = o.exchange_id) ∧
        (t.map Order.exchange_id).Nodup := by
      simpa using hnd
    apply ih (o.exchange_id :: used) (b.addOrder o)
      (invC8_add hb (hvt o (List.mem_cons_self _ _)))
    · intro o' ho' hmem
      rcases List.mem_cons.1 hmem with heq | hin
      · exact hnds.1 o' ho' heq
      · exact hvt o' (List.mem_cons_of_mem _ ho') hin
    · exact hnds.2

theorem invC8_empty : InvC8 [] emptyBook := by
  refine ⟨?_, ?_, ?_, ?_⟩ <;> simp [keysND, emptyBook, sumCounts]

/-- C8: after every operation of a sequence of submits with pairwise
distinct exchange ids (as §6 of the spec assumes of callers), the number of
entries in the flat order-id index equals the sum of `order_count` over all
price levels on both sides.  The statement quantifies over an arbitrary
split `os ++ rest` of the valid sequence, so it covers the book after every
intermediate submit. -/
theorem c8_flat_index_count_sum (os rest : List Order)
    (hnd : ((os ++ rest).map Order.exchange_id).Nodup) :
    (os.foldl LimitOrderBook.addOrder emptyBook).orders.length
      = sumCounts (os.foldl LimitOrderBook.addOrder emptyBook).bids
        + sumCounts (os.foldl LimitOrderBook.addOrder emptyBook).asks := by
  have hnd1 : (os.map Order.exchange_id).Nodup := by
    rw [List.map_append] at hnd
    exact (List.nodup_append.1 hnd).1
  obtain ⟨used', hinv⟩ := invC8_runAdds os [] emptyBook invC8_empty
    (fun o _ => List.not_mem_nil _) hnd1
  exact hinv.2.2.2

def c8Ord1 : Order := ⟨"tick1", 1, .Bid, 10, 100, 0, 0⟩

def c8Ord2 : Order := ⟨"tick2", 2, .Bid, 5, 100, 0, 0⟩

def c8Ord3 : Order := ⟨"tick3", 3, .Ask, 7, 120, 0, 0⟩

theorem c8_flat_index_count_sum_witness :
    ([c8Ord1, c8Ord2, c8Ord3].foldl LimitOrderBook.addOrder emptyBook).orders.length
      = sumCounts ([c8Ord1, c8Ord2, c8Ord3].foldl LimitOrderBook.addOrder
          emptyBook).bids
        + sumCounts ([c8Ord1, c8Ord2, c8Ord3].foldl LimitOrderBook.addOrder
          emptyBook).asks :=
  c8_flat_index_count_sum [c8Ord1, c8Ord2, c8Ord3] [] (by decide)

/-- A fresh bid used to witness the round-trip on the concrete C9 book. -/
def c5Fresh : Order := ⟨"tick3", 7, .Bid, 25, 101, 0, 0⟩

theorem c5_add_remove_roundtrip_witness :
    (c9Book.addOrder c5Fresh).removeOrder c5Fresh = c9Book := by
  apply c5_add_remove_roundtrip c9Book c5Fresh
  · refine ⟨?_, ?_, ?_, ?_, ?_, ?_⟩
    · show (c9Book.bids.map Prod.fst).Nodup
      decide
    · show (c9Book.asks.map Prod.fst).Nodup
      decide
    · with_unfolding_all decide
    · with_unfolding_all decide
    · with_unfolding_all rfl
    · with_unfolding_all rfl
  · with_unfolding_all rfl
  · with_unfolding_all decide
  · with_unfolding_all decide

/-- A well-formed two-order level at price 100: ids 1 and 2, sizes 10 and 20. -/
def c10Ord1 : Order := ⟨"tick1", 1, .Bid, 10, 100, 0, 0⟩

def c10Ord2 : Order := ⟨"tick2", 2, .Bid, 20, 100, 0, 0⟩

def c10Level : Limit := .mk 100 [(1, c10Ord1), (2, c10Ord2)] none 30 3000 2

theorem c10_level_remove_effects_witness :
    (c10Level.removeOrder c10Ord1).size = c10Level.size - c10Ord1.shares ∧
    (c10Level.removeOrder c10Ord1).total_volume
      = c10Level.total_volume - c10Ord1.shares * c10Ord1.limit_price ∧
    (c10Level.removeOrder c10Ord1).order_count = c10Level.order_count - 1 := by
  have h := c10_level_remove_effects c10Level c10Ord1 (by
    refine ⟨rfl, ?_, ?_, ?_, ?_⟩
    · show (c10Level.orders.map Prod.fst).Nodup
      decide
    · with_unfolding_all rfl
    · with_unfolding_all rfl
    · with_unfolding_all rfl)
  exact (h.2.1 c10Ord1 (by with_unfolding_all rfl))

theorem c6_execute_nonterminating :
    (∀ n : Nat, c6Book.executeOrder n c6Taker = none) ∧
    c6BookPos.executeOrder 49 c6BigTaker = none ∧
    (c6BookPos.executeOrder 50 c6BigTaker).isSome = true ∧
    (c6BookPos.executeOrder 50 c6BigTaker).map
      (fun b => (b.asks.length, b.orders.map Prod.fst)) = some (1, [1]) := by
  refine ⟨?_, ?_, ?_, ?_⟩
  · intro n
    rw [executeOrder_bid_eq n c6Book c6Taker rfl]
    rw [show c6Taker.limit_price = (10 : Rat) from rfl]
    rw [show c6Book.asks = [((10 : Rat), c6Level)] from rfl]
    rw [c6_stuck_aux n none]
    rfl
  · with_unfolding_all rfl
  · with_unfolding_all rfl
  · with_unfolding_all rfl


end Tradebot
